import Mathlib

/-!
# c-memory-pool: a size-class slab allocator

Shallow embedding of `memoryPool.h` / `memoryPool.c`.

* Addresses are natural numbers, `NULL` is `0`.  Pointer arithmetic inside a
  block obtained from the system allocator never wraps, so no modulus is taken.
* `MemoryPool*` is an index into the global array `memory_pools`.
* The heap is a map from an address to the pointer-sized word stored there
  (the `next` field of the `Slot` at that address).
* Calls to the external collaborators (`malloc`, `free`,
  `pthread_mutex_lock`, `pthread_mutex_unlock`) are recorded as events
  returned next to the result of every operation.
* The answer of the system allocator is an input of the operation that may
  call it: `sys` is what `malloc` returns if it is called (`0` on failure).
-/

namespace MemPool

/-! ## Configuration (memoryPool.h) -/

/-- Number of pools: `#define MEMORY_POOL_NUM 64`. -/
def MEMORY_POOL_NUM : Nat := 64

/-- Granularity of the size classes: `#define SLOT_BASE_SIZE 8`. -/
def SLOT_BASE_SIZE : Nat := 8

/-- Largest pooled size: `#define MAX_SLOT_SIZE 512`. -/
def MAX_SLOT_SIZE : Nat := 512

/-- Size of a raw block: `#define BLOCK_SIZE 4096`. -/
def BLOCK_SIZE : Nat := 4096

/-- Value of `sizeof(Slot*)` on the LP64 targets the code is built for. -/
def SIZEOF_SLOT_PTR : Nat := 8

/-- The null pointer. -/
def NULL : Nat := 0

/-! ## Data model -/

/-- The data fields of `struct MemoryPool`; `block_mutex` is observed through
the `lock` / `unlock` events. -/
structure MemoryPool where
  block_size : Nat
  slot_size : Nat
  first_block : Nat
  cur_slot : Nat
  free_list : Nat
  last_slot : Nat
deriving DecidableEq

/-- Calls made to the system allocator and to the pool mutexes. -/
inductive Event where
  | malloc (size : Nat) (ret : Nat)
  | free (ptr : Nat)
  | lock (pool : Nat)
  | unlock (pool : Nat)
deriving DecidableEq

/-- Global state: the array `memory_pools` and the heap words. -/
structure State where
  memory_pools : Nat → MemoryPool
  heap : Nat → Nat

/-- Result of an operation: returned value, new state, calls made. -/
structure Res (α : Type) where
  val : α
  state : State
  events : List Event

/-- Overwrite `memory_pools[i]`. -/
def State.setPool (s : State) (i : Nat) (p : MemoryPool) : State :=
  { s with memory_pools := Function.update s.memory_pools i p }

/-- Store the word `v` at address `a`. -/
def State.store (s : State) (a v : Nat) : State :=
  { s with heap := Function.update s.heap a v }

/-! ## Operations (memoryPool.c) -/

/-- Source `pad_pointer`: bytes to add to `p` to reach a multiple of `align`.
(`align` is a slot size, never zero after initialisation.) -/
def pad_pointer (p : Nat) (align : Nat) : Nat :=
  let addr := p
  let offset := align - (addr % align)
  if offset = align then 0 else offset

/-- Source `memory_pool_init`. -/
def memory_pool_init (pool : MemoryPool) (slot_size : Nat) : MemoryPool :=
  { pool with
    block_size := BLOCK_SIZE
    slot_size := slot_size
    first_block := NULL
    cur_slot := NULL
    free_list := NULL
    last_slot := NULL }

/-- The loop of `init_memory_pools` run for `i = 0 .. n-1`. -/
def init_loop : Nat → State → State
  | 0, s => s
  | n + 1, s =>
    let s1 := init_loop n s
    s1.setPool n (memory_pool_init (s1.memory_pools n) ((n + 1) * SLOT_BASE_SIZE))

/-- Source `init_memory_pools`. -/
def init_memory_pools (s : State) : State :=
  init_loop MEMORY_POOL_NUM s

/-- Source `get_memory_pool`: the index of the pool, `none` for `NULL`. -/
def get_memory_pool (size : Nat) : Option Nat :=
  if size > MAX_SLOT_SIZE ∨ size = 0 then none
  else some ((size + SLOT_BASE_SIZE - 1) / SLOT_BASE_SIZE - 1)

/-- Source `allocate_new_block`; `new_block` is the answer of
`malloc(pool->block_size)`.  Returns `1` on success, `0` on failure. -/
def allocate_new_block (s : State) (i : Nat) (new_block : Nat) : Res Nat :=
  let pool := s.memory_pools i
  let alloc_size := pool.block_size
  if new_block = NULL then
    ⟨0, s, [Event.malloc alloc_size new_block, Event.unlock i]⟩
  else
    let s1 := s.store new_block pool.first_block
    let body := new_block + SIZEOF_SLOT_PTR
    let padding_size := pad_pointer body pool.slot_size
    let end_ := new_block + alloc_size - pool.slot_size
    let pool1 := { pool with
      first_block := new_block
      cur_slot := body + padding_size
      last_slot := end_ + 1 }
    ⟨1, s1.setPool i pool1, [Event.malloc alloc_size new_block]⟩

/-- Source `insert_into_free_list`: in single-threaded use the compare and
swap succeeds against the head that was just read. -/
def insert_into_free_list (s : State) (i : Nat) (slot : Nat) : State :=
  let pool := s.memory_pools i
  let old_head := pool.free_list
  let s1 := s.store slot old_head
  s1.setPool i { pool with free_list := slot }

/-- Source `remove_from_free_list`: returns the old head, `NULL` when the list
is empty. -/
def remove_from_free_list (s : State) (i : Nat) : Nat × State :=
  let pool := s.memory_pools i
  let old_head := pool.free_list
  if old_head ≠ NULL then
    let new_head := s.heap old_head
    (old_head, s.setPool i { pool with free_list := new_head })
  else
    (NULL, s)

/-- Lines 149-155 of `pool_alloc`: hand out the slot at `cur_slot`, advance the
cursor by `slot_size`, release the mutex. -/
def take_cur_slot (s : State) (i : Nat) (evs : List Event) : Res Nat :=
  let pool := s.memory_pools i
  let ptr := pool.cur_slot
  let new_cur_slot := pool.cur_slot + pool.slot_size
  ⟨ptr, s.setPool i { pool with cur_slot := new_cur_slot }, evs ++ [Event.unlock i]⟩

/-- Source `pool_alloc`; `sys` is what `malloc` answers if it is called. -/
def pool_alloc (s : State) (size : Nat) (sys : Nat) : Res Nat :=
  if size > MAX_SLOT_SIZE then
    ⟨sys, s, [Event.malloc size sys]⟩
  else
    match get_memory_pool size with
    | none => ⟨NULL, s, []⟩
    | some i =>
      let r := remove_from_free_list s i
      if r.1 ≠ NULL then
        ⟨r.1, r.2, []⟩
      else
        let s1 := r.2
        let pool := s1.memory_pools i
        if pool.cur_slot ≥ pool.last_slot then
          let g := allocate_new_block s1 i sys
          if g.val = 0 then
            ⟨NULL, g.state, Event.lock i :: g.events ++ [Event.unlock i]⟩
          else
            take_cur_slot g.state i (Event.lock i :: g.events)
        else
          take_cur_slot s1 i [Event.lock i]

/-- Source `pool_free`. -/
def pool_free (s : State) (ptr : Nat) (size : Nat) : State × List Event :=
  if ptr = NULL then (s, [])
  else if size > MAX_SLOT_SIZE then (s, [Event.free ptr])
  else
    match get_memory_pool size with
    | none => (s, [])
    | some i => (insert_into_free_list s i ptr, [])

/-- The `while (current_block)` loop of `memory_pool_destroy`: the blocks
passed to `free`, or `none` when `fuel` iterations do not reach `NULL`. -/
def free_block_chain : Nat → (Nat → Nat) → Nat → Option (List Nat)
  | 0, _, current_block => if current_block = NULL then some [] else none
  | fuel + 1, heap, current_block =>
    if current_block = NULL then some []
    else
      let next := heap current_block
      match free_block_chain fuel heap next with
      | none => none
      | some freed => some (current_block :: freed)

/-- Source `memory_pool_destroy`, with `fuel` bounding the chain walk. -/
def memory_pool_destroy (fuel : Nat) (s : State) (i : Nat) : Option (State × List Event) :=
  let pool := s.memory_pools i
  match free_block_chain fuel s.heap pool.first_block with
  | none => none
  | some freed =>
    let pool1 := { pool with
      first_block := NULL
      cur_slot := NULL
      last_slot := NULL
      free_list := NULL }
    some (s.setPool i pool1,
      Event.lock i :: freed.map Event.free ++ [Event.unlock i])

/-- The loop of `destroy_memory_pools` run for `i = 0 .. n-1`. -/
def destroy_loop (fuel : Nat) : Nat → State → Option (State × List Event)
  | 0, s => some (s, [])
  | n + 1, s =>
    match destroy_loop fuel n s with
    | none => none
    | some (s1, evs1) =>
      match memory_pool_destroy fuel s1 n with
      | none => none
      | some (s2, evs2) => some (s2, evs1 ++ evs2)

/-- Source `destroy_memory_pools`. -/
def destroy_memory_pools (fuel : Nat) (s : State) : Option (State × List Event) :=
  destroy_loop fuel MEMORY_POOL_NUM s

/-! ## Specification-side definitions -/

/-- A registry before any initialisation: zeroed static storage. -/
def zeroState : State :=
  ⟨fun _ => ⟨0, 0, 0, 0, 0, 0⟩, fun _ => 0⟩

/-- The registry right after the first `init_memory_pools`. -/
def bootState : State := init_memory_pools zeroState

/-- Pool-level `allocate` written after section 4.4 of the specification
(steps 1 to 5), returning the slot and the new state: pop the free list; on
`Empty` take the growth path, grow when `bump_cursor >= bump_limit`,
propagate `OutOfMemory`, otherwise take the slot at `bump_cursor` and advance
it by `slot_size`.  Growth itself is the source's `allocate_new_block`. -/
def spec_pool_allocate (s : State) (i : Nat) (sys : Nat) : Nat × State :=
  let pool := s.memory_pools i
  if pool.free_list ≠ NULL then
    (pool.free_list, s.setPool i { pool with free_list := s.heap pool.free_list })
  else
    let grown : Option State :=
      if pool.cur_slot ≥ pool.last_slot then
        (if sys = NULL then none else some (allocate_new_block s i sys).state)
      else some s
    match grown with
    | none => (NULL, s)
    | some s1 =>
      let pool1 := s1.memory_pools i
      (pool1.cur_slot, s1.setPool i { pool1 with cur_slot := pool1.cur_slot + pool1.slot_size })

/-- A call of the public interface, with the answer the system allocator
gives if the call reaches it. -/
inductive Call where
  | alloc (size : Nat) (sys : Nat)
  | free (ptr : Nat) (size : Nat)

/-- The size argument of a call. -/
def Call.size : Call → Nat
  | Call.alloc size _ => size
  | Call.free _ size => size

/-- Run one call. -/
def step (s : State) : Call → Res Nat
  | Call.alloc size sys => pool_alloc s size sys
  | Call.free ptr size => ⟨NULL, (pool_free s ptr size).1, (pool_free s ptr size).2⟩

/-- What a caller observes of a sequence of calls: the value each call
returns and the calls it makes to the system. -/
def run : State → List Call → List (Nat × List Event)
  | _, [] => []
  | s, c :: cs => ((step s c).val, (step s c).events) :: run (step s c).state cs

/-- The words of `h` starting at `a` form the null-terminated linked list `l`
of non-null addresses. -/
def ChainList (h : Nat → Nat) : Nat → List Nat → Prop
  | a, [] => a = NULL
  | a, x :: xs => a = x ∧ x ≠ NULL ∧ ChainList h (h x) xs

/-- Following the links from `a` for up to `n` steps visits the same
addresses in both heaps. -/
def Agree (h1 h2 : Nat → Nat) : Nat → Nat → Prop
  | 0, _ => True
  | n + 1, a => a = NULL ∨ (h1 a = h2 a ∧ Agree h1 h2 n (h1 a))

/-- The linked structure hanging off `a` is the same in both heaps. -/
def Good (h1 h2 : Nat → Nat) (a : Nat) : Prop := ∀ n, Agree h1 h2 n a

/-- Two states that cannot be told apart through the pools selected by `J`:
the pools are equal and their free lists and block chains are the same linked
structures. -/
def Sim (J : Nat → Prop) (s1 s2 : State) : Prop :=
  ∀ i, J i →
    s1.memory_pools i = s2.memory_pools i ∧
    Good s1.heap s2.heap (s1.memory_pools i).free_list ∧
    Good s1.heap s2.heap (s1.memory_pools i).first_block

/-- The call is served by a pool selected by `J`, or by no pool. -/
def Call.within (J : Nat → Prop) (c : Call) : Prop :=
  ∀ i, get_memory_pool c.size = some i → J i

/-- The pool was set up by `init_memory_pools` as entry `i` of the registry. -/
def Initialised (s : State) (i : Nat) : Prop :=
  (s.memory_pools i).slot_size = (i + 1) * SLOT_BASE_SIZE ∧
  (s.memory_pools i).block_size = BLOCK_SIZE

/-! ### Contract-obeying use of the allocator -/

/-- Bytes a caller may use behind a pointer obtained for `size` bytes: the
slot of the resolved pool, or `size` bytes of a raw system allocation. -/
def slotExtent (s : State) (size : Nat) : Nat :=
  match get_memory_pool size with
  | some i => (s.memory_pools i).slot_size
  | none => size

/-- The allocator together with the bookkeeping of its environment. -/
structure World where
  /-- registry and heap -/
  state : State
  /-- allocations held by the caller, as (pointer, requested size) -/
  live : List (Nat × Nat)
  /-- regions handed out by the system allocator and not yet returned to it,
  as (base, size) -/
  regions : List (Nat × Nat)

/-- Effect of a system call on the regions in use. -/
def Event.apply (rs : List (Nat × Nat)) : Event → List (Nat × Nat)
  | Event.malloc n r => if r = NULL then rs else (r, n) :: rs
  | Event.free p => rs.filter (fun x => x.1 ≠ p)
  | Event.lock _ => rs
  | Event.unlock _ => rs

/-- The region `[b, b + n)` overlaps no region in use. -/
def FreshRegion (rs : List (Nat × Nat)) (b n : Nat) : Prop :=
  ∀ r ∈ rs, b + n ≤ r.1 ∨ r.1 + r.2 ≤ b

/-- The world right after `init_memory_pools`. -/
def World.init (s0 : State) : World :=
  ⟨init_memory_pools s0, [], []⟩

/-- The world after `pool_alloc(size)`: a non-null result becomes a live
allocation, the system calls update the regions in use. -/
def World.alloc (w : World) (size sys : Nat) : World :=
  ⟨(pool_alloc w.state size sys).state,
    if (pool_alloc w.state size sys).val = NULL then w.live
    else ((pool_alloc w.state size sys).val, size) :: w.live,
    (pool_alloc w.state size sys).events.foldl Event.apply w.regions⟩

/-- The world after `pool_free(p, size)`: the allocation is no longer live. -/
def World.free (w : World) (p size : Nat) : World :=
  ⟨(pool_free w.state p size).1, w.live.erase (p, size),
    (pool_free w.state p size).2.foldl Event.apply w.regions⟩

/-- The world after the caller stores the word `v` at address `a`. -/
def World.store (w : World) (a v : Nat) : World :=
  ⟨w.state.store a v, w.live, w.regions⟩

/-- The pointer-sized word at `a` lies inside the allocation `e`. -/
def WordIn (s : State) (e : Nat × Nat) (a : Nat) : Prop :=
  e.1 ≤ a ∧ a + SIZEOF_SLOT_PTR ≤ e.1 + slotExtent s e.2

/-- Worlds reached from `init_memory_pools` by single-threaded use that obeys
the release contract: `pool_alloc` with a system allocator whose non-null
answers are disjoint from every region in use, `pool_free` of a live pointer
with the size it was allocated with, and stores of a word into a live
allocation. -/
inductive Reachable : World → Prop
  | init (s0 : State) : Reachable (World.init s0)
  | alloc (w : World) (size sys : Nat) :
      Reachable w →
      (sys ≠ NULL → ∀ n, Event.malloc n sys ∈ (pool_alloc w.state size sys).events →
        FreshRegion w.regions sys n) →
      Reachable (w.alloc size sys)
  | free (w : World) (p size : Nat) :
      Reachable w → (p, size) ∈ w.live → Reachable (w.free p size)
  | store (w : World) (a v : Nat) :
      Reachable w → (∃ e ∈ w.live, WordIn w.state e a) → Reachable (w.store a v)

/-- The byte ranges `[p, p + n)` and `[q, q + m)` do not meet. -/
def DisjointRanges (p n q m : Nat) : Prop := p + n ≤ q ∨ q + m ≤ p

/-! ### Invariant of reachable worlds -/

/-- Blocks owned by pool `i`, newest first, out of the list of all
(pool, block) acquisitions. -/
def blocksOf (owned : List (Nat × Nat)) (i : Nat) : List Nat :=
  (owned.filter (fun e => e.1 = i)).map Prod.snd

/-- Pointers of class `i` held by the caller. -/
def liveOf (live : List (Nat × Nat)) (i : Nat) : List Nat :=
  (live.filter (fun e => get_memory_pool e.2 = some i)).map Prod.fst

/-- The address `q` is a slot carved from one of the blocks `bl` of `pool`:
aligned, behind the link header, inside the block, and below the cursor when
the block is the current one. -/
def IsSlot (bl : List Nat) (pool : MemoryPool) (q : Nat) : Prop :=
  pool.slot_size ∣ q ∧
  ∃ b ∈ bl, b + SIZEOF_SLOT_PTR ≤ q ∧ q + pool.slot_size ≤ b + BLOCK_SIZE ∧
    (b = pool.first_block → q < pool.cur_slot)

/-- Invariant of one pool: `bl` are its blocks, `lv` its slots held by the
caller, `fr` its free list. -/
structure PoolInv (h : Nat → Nat) (bl lv fr : List Nat) (i : Nat) (pool : MemoryPool) :
    Prop where
  slot_size_eq : pool.slot_size = (i + 1) * SLOT_BASE_SIZE
  block_size_eq : pool.block_size = BLOCK_SIZE
  chain : ChainList h pool.first_block bl
  free_chain : ChainList h pool.free_list fr
  cursor : (pool.first_block = NULL ∧ pool.cur_slot = NULL ∧ pool.last_slot = NULL) ∨
    (pool.first_block ≠ NULL ∧ pool.first_block + SIZEOF_SLOT_PTR ≤ pool.cur_slot ∧
      pool.slot_size ∣ pool.cur_slot ∧
      pool.last_slot = pool.first_block + BLOCK_SIZE - pool.slot_size + 1)
  slots : ∀ q ∈ lv ++ fr, IsSlot bl pool q
  nodup : (lv ++ fr).Nodup

/-- Invariant relating the allocations held by the caller, the regions in
use and the blocks acquired by the pools. -/
structure GlobalInv (live regions owned : List (Nat × Nat)) : Prop where
  owned_disj : owned.Pairwise
    (fun e e' => e.2 + BLOCK_SIZE ≤ e'.2 ∨ e'.2 + BLOCK_SIZE ≤ e.2)
  owned_regions : ∀ e ∈ owned, (e.2, BLOCK_SIZE) ∈ regions
  live_ok : ∀ e ∈ live, e.1 ≠ NULL ∧ 0 < e.2
  big_regions : ∀ e ∈ live, e.2 > MAX_SLOT_SIZE → e ∈ regions
  big_owned : ∀ e ∈ live, e.2 > MAX_SLOT_SIZE →
    ∀ o ∈ owned, e.1 + e.2 ≤ o.2 ∨ o.2 + BLOCK_SIZE ≤ e.1
  big_distinct : (live.filter (fun e => e.2 > MAX_SLOT_SIZE)).Pairwise
    (fun e e' => e.1 ≠ e'.1)

/-- Invariant of a world, for the acquisitions `owned` and the free lists
`frees`. -/
structure Inv (w : World) (owned : List (Nat × Nat)) (frees : Nat → List Nat) : Prop where
  pools : ∀ i, i < MEMORY_POOL_NUM →
    PoolInv w.state.heap (blocksOf owned i) (liveOf w.live i) (frees i) i
      (w.state.memory_pools i)
  globals : GlobalInv w.live w.regions owned

/-! ### Runs, repeated growth, acquisitions -/

/-- State after a sequence of calls. -/
def runState : State → List Call → State
  | s, [] => s
  | s, c :: cs => runState (step s c).state cs

/-- State after `allocate_new_block` has been run on pool `i` once for each
answer of the system allocator in `syss` (a null answer is a failed growth). -/
def grow_many (s : State) (i : Nat) : List Nat → State
  | [] => s
  | sys :: syss => grow_many (allocate_new_block s i sys).state i syss

/-- The block a `pool_alloc(size)` call obtains from the system allocator for
a pool, as (pool, block): present when the call reaches `malloc` on the pool
path and the answer `sys` is not null. -/
def World.acquired (w : World) (size sys : Nat) : List (Nat × Nat) :=
  match get_memory_pool size with
  | some i =>
    if sys ≠ NULL ∧
        Event.malloc (w.state.memory_pools i).block_size sys ∈
          (pool_alloc w.state size sys).events then [(i, sys)]
    else []
  | none => []

/-- Reachable worlds together with the blocks the pools have obtained from the
system allocator so far, newest first, as (pool, block). -/
inductive ReachableWith : World → List (Nat × Nat) → Prop
  | init (s0 : State) : ReachableWith (World.init s0) []
  | alloc (w : World) (acq : List (Nat × Nat)) (size sys : Nat) :
      ReachableWith w acq →
      (sys ≠ NULL → ∀ n, Event.malloc n sys ∈ (pool_alloc w.state size sys).events →
        FreshRegion w.regions sys n) →
      ReachableWith (w.alloc size sys) (w.acquired size sys ++ acq)
  | free (w : World) (acq : List (Nat × Nat)) (p size : Nat) :
      ReachableWith w acq → (p, size) ∈ w.live → ReachableWith (w.free p size) acq
  | store (w : World) (acq : List (Nat × Nat)) (a v : Nat) :
      ReachableWith w acq → (∃ e ∈ w.live, WordIn w.state e a) →
      ReachableWith (w.store a v) acq

/-! ### Atomic steps of `remove_from_free_list`

The three shared-memory accesses of one iteration of the loop in
`remove_from_free_list`, each atomic, so that calls of other threads can be
placed between them.  `remove_from_free_list` above is their uninterrupted
composition. -/

/-- First access: `old_head = atomic_load(&pool->free_list)`. -/
def pop_load (s : State) (i : Nat) : Nat :=
  (s.memory_pools i).free_list

/-- Second access: `new_head = old_head->next`. -/
def pop_next (s : State) (old_head : Nat) : Nat :=
  s.heap old_head

/-- Third access: the compare and swap of `pool->free_list` from `old_head` to
`new_head`.  Returns whether it succeeded, the value of `old_head` afterwards
(reloaded on failure) and the new state. -/
def pop_cas (s : State) (i : Nat) (old_head new_head : Nat) : Bool × Nat × State :=
  let pool := s.memory_pools i
  if pool.free_list = old_head then
    (true, old_head, s.setPool i { pool with free_list := new_head })
  else
    (false, pool.free_list, s)

/-- A world reached by contract-obeying use in which the free list of pool 0 is
`4104 -> 4112 -> NULL` and the caller holds nothing: two slots of size 8
allocated from a block at 4096 and released again. -/
def abaWorld : World :=
  ((((World.init zeroState).alloc 8 4096).alloc 8 0).free 4112 8).free 4104 8

/-- Thread B runs, after thread A has done its first two accesses on
`abaWorld`: `pool_alloc(8)`, `pool_alloc(8)`, then `pool_free` of the first
result. -/
def abaAfterB : State :=
  (pool_free (pool_alloc (pool_alloc abaWorld.state 8 0).state 8 0).state
    (pool_alloc abaWorld.state 8 0).val 8).1

/-- Thread A then completes its `remove_from_free_list` with the compare and
swap, using the values it read before thread B ran. -/
def abaAfterA : Bool × Nat × State :=
  pop_cas abaAfterB 0 (pop_load abaWorld.state 0)
    (pop_next abaWorld.state (pop_load abaWorld.state 0))

/-! ## Basic facts -/

theorem init_loop_pools (n : Nat) (s : State) (i : Nat) :
    (init_loop n s).memory_pools i =
      if i < n then memory_pool_init (s.memory_pools i) ((i + 1) * SLOT_BASE_SIZE)
      else s.memory_pools i := by
  induction n with
  | zero => simp [init_loop]
  | succ n ih =>
    simp only [init_loop, State.setPool]
    by_cases h : i = n
    · subst h
      simp [ih]
    · rw [Function.update_noteq h, ih]
      have : (i < n + 1) ↔ (i < n) := by omega
      simp [this]

theorem init_loop_heap (n : Nat) (s : State) : (init_loop n s).heap = s.heap := by
  induction n with
  | zero => rfl
  | succ n ih => simpa [init_loop, State.setPool] using ih

theorem init_memory_pools_pool (s : State) (i : Nat) (h : i < MEMORY_POOL_NUM) :
    (init_memory_pools s).memory_pools i =
      memory_pool_init (s.memory_pools i) ((i + 1) * SLOT_BASE_SIZE) := by
  simp [init_memory_pools, init_loop_pools, h]

theorem get_memory_pool_some {size : Nat} (h1 : 1 ≤ size) (h2 : size ≤ MAX_SLOT_SIZE) :
    get_memory_pool size = some ((size + SLOT_BASE_SIZE - 1) / SLOT_BASE_SIZE - 1) := by
  unfold get_memory_pool
  rw [if_neg]
  omega

theorem get_memory_pool_lt {size i : Nat} (h : get_memory_pool size = some i) :
    i < MEMORY_POOL_NUM ∧ 1 ≤ size ∧ size ≤ MAX_SLOT_SIZE ∧
      size ≤ (i + 1) * SLOT_BASE_SIZE ∧ (i + 1) * SLOT_BASE_SIZE < size + SLOT_BASE_SIZE := by
  unfold get_memory_pool at h
  split at h
  · cases h
  · simp only [MAX_SLOT_SIZE, SLOT_BASE_SIZE, MEMORY_POOL_NUM, Option.some.injEq] at *
    omega

theorem pad_pointer_lt (p : Nat) {a : Nat} (ha : 0 < a) : pad_pointer p a < a := by
  unfold pad_pointer
  have := Nat.mod_lt p ha
  simp only
  split_ifs <;> omega

theorem pad_pointer_dvd (p : Nat) {a : Nat} (ha : 0 < a) : a ∣ p + pad_pointer p a := by
  unfold pad_pointer
  have hr := Nat.mod_lt p ha
  have hd := Nat.div_add_mod p a
  simp only
  split_ifs with h
  · rw [Nat.add_zero]
    exact Nat.dvd_of_mod_eq_zero (by omega)
  · refine ⟨p / a + 1, ?_⟩
    rw [Nat.mul_add, Nat.mul_one]
    omega

/-! ## The paths through `pool_alloc` and `pool_free` -/

theorem pool_alloc_big {size : Nat} (s : State) (sys : Nat) (h : size > MAX_SLOT_SIZE) :
    pool_alloc s size sys = ⟨sys, s, [Event.malloc size sys]⟩ := by
  simp [pool_alloc, h]

theorem pool_alloc_zero (s : State) (sys : Nat) :
    pool_alloc s 0 sys = ⟨NULL, s, []⟩ := by
  simp [pool_alloc, get_memory_pool, MAX_SLOT_SIZE]

theorem pool_alloc_pop {size i : Nat} (s : State) (sys : Nat)
    (hg : get_memory_pool size = some i) (hf : (s.memory_pools i).free_list ≠ NULL) :
    pool_alloc s size sys =
      ⟨(s.memory_pools i).free_list,
        s.setPool i { s.memory_pools i with
          free_list := s.heap (s.memory_pools i).free_list }, []⟩ := by
  have hs := (get_memory_pool_lt hg).2.2
  simp [pool_alloc, hg, remove_from_free_list, hf, Nat.not_lt.mpr hs.1]

theorem pool_alloc_bump {size i : Nat} (s : State) (sys : Nat)
    (hg : get_memory_pool size = some i) (hf : (s.memory_pools i).free_list = NULL)
    (hc : (s.memory_pools i).cur_slot < (s.memory_pools i).last_slot) :
    pool_alloc s size sys = take_cur_slot s i [Event.lock i] := by
  have hs := (get_memory_pool_lt hg).2.2
  simp [pool_alloc, hg, remove_from_free_list, hf, Nat.not_lt.mpr hs.1, Nat.not_le.mpr hc]

theorem pool_alloc_fail {size i : Nat} (s : State)
    (hg : get_memory_pool size = some i) (hf : (s.memory_pools i).free_list = NULL)
    (hc : (s.memory_pools i).last_slot ≤ (s.memory_pools i).cur_slot) :
    pool_alloc s size NULL =
      ⟨NULL, s, [Event.lock i, Event.malloc (s.memory_pools i).block_size NULL,
        Event.unlock i, Event.unlock i]⟩ := by
  have hs := (get_memory_pool_lt hg).2.2
  simp [pool_alloc, hg, remove_from_free_list, hf, Nat.not_lt.mpr hs.1, hc, allocate_new_block]

theorem pool_alloc_grow {size i sys : Nat} (s : State)
    (hg : get_memory_pool size = some i) (hf : (s.memory_pools i).free_list = NULL)
    (hc : (s.memory_pools i).last_slot ≤ (s.memory_pools i).cur_slot) (hsys : sys ≠ NULL) :
    pool_alloc s size sys =
      take_cur_slot (allocate_new_block s i sys).state i
        [Event.lock i, Event.malloc (s.memory_pools i).block_size sys] := by
  have hs := (get_memory_pool_lt hg).2.2
  simp [pool_alloc, hg, remove_from_free_list, hf, Nat.not_lt.mpr hs.1, hc, allocate_new_block,
    hsys]

theorem pool_free_small {size i ptr : Nat} (s : State)
    (hg : get_memory_pool size = some i) (hp : ptr ≠ NULL) :
    pool_free s ptr size = (insert_into_free_list s i ptr, []) := by
  have hs := (get_memory_pool_lt hg).2.2
  simp [pool_free, hg, hp, Nat.not_lt.mpr hs.1]

theorem pool_free_big {size ptr : Nat} (s : State)
    (h : size > MAX_SLOT_SIZE) (hp : ptr ≠ NULL) :
    pool_free s ptr size = (s, [Event.free ptr]) := by
  simp [pool_free, hp, h]

/-- State reached by a successful `allocate_new_block`. -/
theorem allocate_new_block_state {sys : Nat} (s : State) (i : Nat) (hsys : sys ≠ NULL) :
    (allocate_new_block s i sys).state =
      (s.store sys (s.memory_pools i).first_block).setPool i
        { s.memory_pools i with
          first_block := sys
          cur_slot := sys + SIZEOF_SLOT_PTR +
            pad_pointer (sys + SIZEOF_SLOT_PTR) (s.memory_pools i).slot_size
          last_slot := sys + (s.memory_pools i).block_size - (s.memory_pools i).slot_size + 1 } := by
  simp [allocate_new_block, hsys]

/-! ## Class selection -/

/-- C4: after `init_memory_pools`, every size in `[1, 512]` resolves to the
pool at index `ceil(size / 8) - 1`, the index is below 64, and the slot size
of that pool is the least multiple of 8 that is at least `size`; the size
`8 * k - 1` resolves to the pool of slot size `8 * k` for `k` in `[1, 64]`. -/
theorem C4_class_selection (s : State) :
    (∀ size, 1 ≤ size → size ≤ 512 →
      ∃ i, get_memory_pool size = some i ∧
        i = Nat.ceil ((size : ℚ) / 8) - 1 ∧ i ≤ 63 ∧
        8 ∣ ((init_memory_pools s).memory_pools i).slot_size ∧
        size ≤ ((init_memory_pools s).memory_pools i).slot_size ∧
        ((init_memory_pools s).memory_pools i).slot_size - size < 8 ∧
        ∀ m, 8 ∣ m → size ≤ m → ((init_memory_pools s).memory_pools i).slot_size ≤ m) ∧
    (∀ k, 1 ≤ k → k ≤ 64 →
      ∃ i, get_memory_pool (8 * k - 1) = some i ∧
        ((init_memory_pools s).memory_pools i).slot_size = 8 * k) := by
  constructor
  · intro size h1 h2
    have hg := get_memory_pool_some h1 (by simpa [MAX_SLOT_SIZE] using h2)
    obtain ⟨hi, -, -, hle, hlt⟩ := get_memory_pool_lt hg
    refine ⟨_, hg, ?_, ?_, ?_, ?_, ?_, ?_⟩
    · have hc : Nat.ceil ((size : ℚ) / 8) = (size + 7) / 8 := by
        rw [Nat.ceil_eq_iff (by simp [SLOT_BASE_SIZE]; omega)]
        constructor
        · rw [lt_div_iff₀ (by norm_num)]
          have : (size + 7) / 8 * 8 < size + 8 := by omega
          have h0 : 1 ≤ (size + 7) / 8 := by omega
          rw [Nat.cast_sub h0]
          have : (((size + 7) / 8 * 8 : ℕ) : ℚ) < ((size + 8 : ℕ) : ℚ) := by exact_mod_cast this
          push_cast at this
          linarith
        · rw [div_le_iff₀ (by norm_num)]
          have : size ≤ (size + 7) / 8 * 8 := by omega
          exact_mod_cast this
      rw [hc]
      simp [SLOT_BASE_SIZE]
    · simp only [MEMORY_POOL_NUM] at hi
      omega
    · rw [init_memory_pools_pool s _ hi]
      simp [memory_pool_init, SLOT_BASE_SIZE]
    · rw [init_memory_pools_pool s _ hi]
      simpa [memory_pool_init] using hle
    · rw [init_memory_pools_pool s _ hi]
      simp only [memory_pool_init, SLOT_BASE_SIZE] at *
      omega
    · intro m hm hsm
      rw [init_memory_pools_pool s _ hi]
      simp only [memory_pool_init, SLOT_BASE_SIZE] at *
      obtain ⟨c, rfl⟩ := hm
      omega
  · intro k h1 h2
    have hg := get_memory_pool_some (show 1 ≤ 8 * k - 1 by omega)
      (show 8 * k - 1 ≤ MAX_SLOT_SIZE by simp only [MAX_SLOT_SIZE]; omega)
    obtain ⟨hi, -, -, -, -⟩ := get_memory_pool_lt hg
    refine ⟨_, hg, ?_⟩
    rw [init_memory_pools_pool s _ hi]
    simp only [memory_pool_init, SLOT_BASE_SIZE]
    omega

/-- Witness for C4 on the zeroed registry. -/
theorem C4_class_selection_witness :
    ∃ i, get_memory_pool 7 = some i ∧
      ((init_memory_pools zeroState).memory_pools i).slot_size = 8 * 1 :=
  (C4_class_selection zeroState).2 1 (by decide) (by decide)

/-- C5: `get_memory_pool` returns `NULL` exactly for size zero and for sizes
above `MAX_SLOT_SIZE`; every other size yields a pool of the registry. -/
theorem C5_not_found_iff (size : Nat) :
    (get_memory_pool size = none ↔ (size = 0 ∨ size > MAX_SLOT_SIZE)) ∧
    (¬ (size = 0 ∨ size > MAX_SLOT_SIZE) →
      ∃ i, i < MEMORY_POOL_NUM ∧ get_memory_pool size = some i) := by
  constructor
  · unfold get_memory_pool
    constructor
    · intro h
      split at h
      · omega
      · cases h
    · intro h
      rw [if_pos]
      omega
  · intro h
    have hg := get_memory_pool_some (show 1 ≤ size by omega) (show size ≤ MAX_SLOT_SIZE by omega)
    exact ⟨_, (get_memory_pool_lt hg).1, hg⟩

/-- Witness for C5 at size 512. -/
theorem C5_not_found_iff_witness :
    ∃ i, i < MEMORY_POOL_NUM ∧ get_memory_pool 512 = some i :=
  (C5_not_found_iff 512).2 (by decide)

/-! ## Routing -/

/-- C6 (as stated, refuted at size zero): `pool_alloc(0)` on the freshly
initialised registry neither returns the answer `4096` the system allocator
would give nor calls it. -/
theorem C6_zero_size_counterexample :
    ¬ ((pool_alloc bootState 0 4096).val = 4096 ∧
        (pool_alloc bootState 0 4096).events = [Event.malloc 0 4096]) := by
  rw [pool_alloc_zero]
  simp [NULL]

/-- C6 (amended): a size above `MAX_SLOT_SIZE` goes straight to the system
allocator and its answer is returned unmodified; size zero returns `NULL`
without calling the system allocator and without touching the state; every
other size is served by the pool `get_memory_pool(size)` resolves, exactly as
the pool-level `allocate` of the specification, leaving all other pools alone
and asking the system allocator for nothing but one block of that pool. -/
theorem C6_routing (s : State) (size sys : Nat) :
    (size > MAX_SLOT_SIZE → pool_alloc s size sys = ⟨sys, s, [Event.malloc size sys]⟩) ∧
    (size = 0 → pool_alloc s size sys = ⟨NULL, s, []⟩) ∧
    (1 ≤ size → size ≤ MAX_SLOT_SIZE →
      ∃ i, get_memory_pool size = some i ∧ i < MEMORY_POOL_NUM ∧
        ((pool_alloc s size sys).val, (pool_alloc s size sys).state) =
          spec_pool_allocate s i sys ∧
        (∀ j, j ≠ i → (pool_alloc s size sys).state.memory_pools j = s.memory_pools j) ∧
        (∀ n r, Event.malloc n r ∈ (pool_alloc s size sys).events →
          n = (s.memory_pools i).block_size ∧ r = sys)) := by
  refine ⟨fun h => pool_alloc_big s sys h, fun h => by subst h; exact pool_alloc_zero s sys, ?_⟩
  intro h1 h2
  have hg := get_memory_pool_some h1 h2
  refine ⟨_, hg, (get_memory_pool_lt hg).1, ?_⟩
  generalize (size + SLOT_BASE_SIZE - 1) / SLOT_BASE_SIZE - 1 = i at hg
  by_cases hf : (s.memory_pools i).free_list = NULL
  · by_cases hc : (s.memory_pools i).last_slot ≤ (s.memory_pools i).cur_slot
    · by_cases hsys : sys = NULL
      · subst hsys
        rw [pool_alloc_fail s hg hf hc]
        refine ⟨?_, fun j _ => rfl, ?_⟩
        · simp [spec_pool_allocate, hf, hc]
        · intro n r hm
          simpa using hm
      · rw [pool_alloc_grow s hg hf hc hsys]
        refine ⟨?_, ?_, ?_⟩
        · simp [spec_pool_allocate, hf, hc, hsys, take_cur_slot]
        · intro j hj
          simp [take_cur_slot, allocate_new_block_state s i hsys, State.setPool, State.store,
            Function.update_noteq hj]
        · intro n r hm
          simpa [take_cur_slot] using hm
    · have hc2 : (s.memory_pools i).cur_slot < (s.memory_pools i).last_slot := by omega
      rw [pool_alloc_bump s sys hg hf hc2]
      refine ⟨?_, ?_, ?_⟩
      · simp [spec_pool_allocate, hf, hc, take_cur_slot]
      · intro j hj
        simp [take_cur_slot, State.setPool, Function.update_noteq hj]
      · intro n r hm
        simp [take_cur_slot] at hm
  · rw [pool_alloc_pop s sys hg hf]
    refine ⟨?_, ?_, ?_⟩
    · simp [spec_pool_allocate, hf]
    · intro j hj
      simp [State.setPool, Function.update_noteq hj]
    · intro n r hm
      simp at hm

/-- Witness for C6 (amended): size 8 on the freshly initialised registry. -/
theorem C6_routing_witness :
    ∃ i, get_memory_pool 8 = some i ∧ i < MEMORY_POOL_NUM ∧
      ((pool_alloc bootState 8 4096).val, (pool_alloc bootState 8 4096).state) =
        spec_pool_allocate bootState i 4096 ∧
      (∀ j, j ≠ i → (pool_alloc bootState 8 4096).state.memory_pools j =
        bootState.memory_pools j) ∧
      (∀ n r, Event.malloc n r ∈ (pool_alloc bootState 8 4096).events →
        n = (bootState.memory_pools i).block_size ∧ r = 4096) :=
  (C6_routing bootState 8 4096).2.2 (by decide) (by decide)

/-- C7: for a size above `MAX_SLOT_SIZE`, `pool_alloc` returns what the system
allocator returns and changes nothing of the registry or the heap, and
`pool_free` of a non-null pointer with that size calls the system deallocator
on the pointer exactly once and changes nothing either. -/
theorem C7_oversized_passthrough (s : State) (size sys ptr : Nat)
    (h : size > MAX_SLOT_SIZE) (hp : ptr ≠ NULL) :
    (pool_alloc s size sys).val = sys ∧
    (pool_alloc s size sys).state = s ∧
    (pool_alloc s size sys).events = [Event.malloc size sys] ∧
    (pool_free s ptr size).1 = s ∧
    (pool_free s ptr size).2 = [Event.free ptr] := by
  rw [pool_alloc_big s sys h, pool_free_big s h hp]
  exact ⟨rfl, rfl, rfl, rfl, rfl⟩

/-- Witness for C7: size 513 answered with address 8192. -/
theorem C7_oversized_passthrough_witness :
    (pool_alloc bootState 513 8192).val = 8192 ∧
    (pool_alloc bootState 513 8192).state = bootState ∧
    (pool_alloc bootState 513 8192).events = [Event.malloc 513 8192] ∧
    (pool_free bootState 8192 513).1 = bootState ∧
    (pool_free bootState 8192 513).2 = [Event.free 8192] :=
  C7_oversized_passthrough bootState 513 8192 8192 (by decide) (by decide)

/-! ## Free then allocate -/

/-- C8: after `pool_free(p, sz)` with `p` non-null and `sz` in `[1, 512]`, the
next `pool_alloc` of any size of the same class returns `p`, makes no call to
the system allocator (or to anything else), leaves block chain, cursor and
limit of every pool as they were, and puts the free-list head back to its
value from before the release. -/
theorem C8_free_then_alloc (s : State) (p sz sz' sys : Nat) (hp : p ≠ NULL)
    (h1 : 1 ≤ sz) (h2 : sz ≤ MAX_SLOT_SIZE)
    (hc : get_memory_pool sz' = get_memory_pool sz) :
    (pool_free s p sz).2 = [] ∧
    (pool_alloc (pool_free s p sz).1 sz' sys).val = p ∧
    (pool_alloc (pool_free s p sz).1 sz' sys).events = [] ∧
    (∀ j, ((pool_alloc (pool_free s p sz).1 sz' sys).state.memory_pools j).first_block =
          ((pool_free s p sz).1.memory_pools j).first_block ∧
        ((pool_alloc (pool_free s p sz).1 sz' sys).state.memory_pools j).cur_slot =
          ((pool_free s p sz).1.memory_pools j).cur_slot ∧
        ((pool_alloc (pool_free s p sz).1 sz' sys).state.memory_pools j).last_slot =
          ((pool_free s p sz).1.memory_pools j).last_slot) ∧
    (∀ j, ((pool_alloc (pool_free s p sz).1 sz' sys).state.memory_pools j).free_list =
          (s.memory_pools j).free_list) ∧
    (pool_alloc (pool_free s p sz).1 sz' sys).state.memory_pools = s.memory_pools := by
  have hg := get_memory_pool_some h1 h2
  have hg' := hc.trans hg
  generalize (sz + SLOT_BASE_SIZE - 1) / SLOT_BASE_SIZE - 1 = i at hg hg'
  rw [pool_free_small s hg hp]
  have hne : ((insert_into_free_list s i p).memory_pools i).free_list ≠ NULL := by
    simpa [insert_into_free_list, State.setPool, State.store] using hp
  rw [pool_alloc_pop _ sys hg' hne]
  have hpools : ((insert_into_free_list s i p).setPool i
      { (insert_into_free_list s i p).memory_pools i with
        free_list := (insert_into_free_list s i p).heap
          ((insert_into_free_list s i p).memory_pools i).free_list }).memory_pools
        = s.memory_pools := by
    funext j
    by_cases hj : j = i
    · subst hj
      simp [insert_into_free_list, State.setPool, State.store]
    · simp [insert_into_free_list, State.setPool, State.store, Function.update_noteq hj]
  refine ⟨rfl, ?_, rfl, ?_, ?_, hpools⟩
  · simp [insert_into_free_list, State.setPool, State.store]
  · intro j
    by_cases hj : j = i
    · subst hj
      simp [insert_into_free_list, State.setPool, State.store]
    · simp [insert_into_free_list, State.setPool, State.store, Function.update_noteq hj]
  · intro j
    rw [hpools]

/-- Witness for C8: release address 4104 with size 5, allocate size 8. -/
theorem C8_free_then_alloc_witness :
    (pool_free bootState 4104 5).2 = [] ∧
    (pool_alloc (pool_free bootState 4104 5).1 8 0).val = 4104 ∧
    (pool_alloc (pool_free bootState 4104 5).1 8 0).events = [] ∧
    (∀ j, ((pool_alloc (pool_free bootState 4104 5).1 8 0).state.memory_pools j).first_block =
          ((pool_free bootState 4104 5).1.memory_pools j).first_block ∧
        ((pool_alloc (pool_free bootState 4104 5).1 8 0).state.memory_pools j).cur_slot =
          ((pool_free bootState 4104 5).1.memory_pools j).cur_slot ∧
        ((pool_alloc (pool_free bootState 4104 5).1 8 0).state.memory_pools j).last_slot =
          ((pool_free bootState 4104 5).1.memory_pools j).last_slot) ∧
    (∀ j, ((pool_alloc (pool_free bootState 4104 5).1 8 0).state.memory_pools j).free_list =
          (bootState.memory_pools j).free_list) ∧
    (pool_alloc (pool_free bootState 4104 5).1 8 0).state.memory_pools =
      bootState.memory_pools :=
  C8_free_then_alloc bootState 4104 5 8 0 (by decide) (by decide) (by decide) (by decide)

/-! ## Out of memory -/

/-- Slot handed out right after a successful growth of pool `i` with the block
at `sys`: it is aligned to the slot size and lies inside the block, behind the
link header. -/
theorem grown_slot_valid (sys : Nat) {ss : Nat} (h0 : 0 < ss) (h512 : ss ≤ MAX_SLOT_SIZE) :
    ss ∣ sys + SIZEOF_SLOT_PTR + pad_pointer (sys + SIZEOF_SLOT_PTR) ss ∧
    sys + SIZEOF_SLOT_PTR ≤ sys + SIZEOF_SLOT_PTR + pad_pointer (sys + SIZEOF_SLOT_PTR) ss ∧
    sys + SIZEOF_SLOT_PTR + pad_pointer (sys + SIZEOF_SLOT_PTR) ss + ss ≤ sys + BLOCK_SIZE ∧
    sys + SIZEOF_SLOT_PTR + pad_pointer (sys + SIZEOF_SLOT_PTR) ss <
      sys + BLOCK_SIZE - ss + 1 := by
  have hlt := pad_pointer_lt (sys + SIZEOF_SLOT_PTR) h0
  refine ⟨pad_pointer_dvd _ h0, Nat.le_add_right _ _, ?_, ?_⟩ <;>
    simp only [SIZEOF_SLOT_PTR, BLOCK_SIZE, MAX_SLOT_SIZE] at * <;> omega

/-- C9: when the free list of the resolved pool is empty, its block is
exhausted and the system allocator fails, `pool_alloc` returns `NULL` and the
whole state (every field of every pool, and the heap) is unchanged; a following
`pool_alloc` for which the system allocator answers with a block then returns
a non-null slot, aligned and inside that block. -/
theorem C9_oom_atomic (s : State) (size i : Nat)
    (hg : get_memory_pool size = some i)
    (hf : (s.memory_pools i).free_list = NULL)
    (hc : (s.memory_pools i).cur_slot ≥ (s.memory_pools i).last_slot) :
    (pool_alloc s size NULL).val = NULL ∧
    (pool_alloc s size NULL).state = s ∧
    (∀ sys, sys ≠ NULL →
      (s.memory_pools i).slot_size = (i + 1) * SLOT_BASE_SIZE →
      (s.memory_pools i).block_size = BLOCK_SIZE →
      (pool_alloc (pool_alloc s size NULL).state size sys).val ≠ NULL ∧
      (s.memory_pools i).slot_size ∣ (pool_alloc (pool_alloc s size NULL).state size sys).val ∧
      sys + SIZEOF_SLOT_PTR ≤ (pool_alloc (pool_alloc s size NULL).state size sys).val ∧
      (pool_alloc (pool_alloc s size NULL).state size sys).val + (s.memory_pools i).slot_size
        ≤ sys + BLOCK_SIZE) := by
  rw [pool_alloc_fail s hg hf hc]
  refine ⟨rfl, rfl, ?_⟩
  intro sys hsys hss hbs
  have hi := (get_memory_pool_lt hg).1
  have h0 : 0 < (s.memory_pools i).slot_size := by
    rw [hss]; simp [SLOT_BASE_SIZE]
  have h512 : (s.memory_pools i).slot_size ≤ MAX_SLOT_SIZE := by
    rw [hss]; simp only [SLOT_BASE_SIZE, MAX_SLOT_SIZE, MEMORY_POOL_NUM] at *; omega
  obtain ⟨hd, hlo, hhi, -⟩ := grown_slot_valid sys h0 h512
  rw [pool_alloc_grow s hg hf hc hsys]
  simp only [take_cur_slot, allocate_new_block_state s i hsys, State.setPool, State.store,
    Function.update_same]
  refine ⟨?_, hd, hlo, hhi⟩
  simp only [NULL, SIZEOF_SLOT_PTR] at *
  omega

/-- Witness for C9: size 8 on the freshly initialised registry, then a block
at address 4096. -/
theorem C9_oom_atomic_witness :
    (pool_alloc bootState 8 NULL).val = NULL ∧
    (pool_alloc bootState 8 NULL).state = bootState ∧
    ((pool_alloc (pool_alloc bootState 8 NULL).state 8 4096).val ≠ NULL ∧
      (bootState.memory_pools 0).slot_size ∣
        (pool_alloc (pool_alloc bootState 8 NULL).state 8 4096).val ∧
      4096 + SIZEOF_SLOT_PTR ≤ (pool_alloc (pool_alloc bootState 8 NULL).state 8 4096).val ∧
      (pool_alloc (pool_alloc bootState 8 NULL).state 8 4096).val +
        (bootState.memory_pools 0).slot_size ≤ 4096 + BLOCK_SIZE) :=
  have h := C9_oom_atomic bootState 8 0 (by decide) (by decide) (by decide)
  ⟨h.1, h.2.1, h.2.2 4096 (by decide) (by decide) (by decide)⟩

/-! ## Teardown -/

theorem free_block_chain_of_chain {h : Nat → Nat} :
    ∀ (bs : List Nat) (a fuel : Nat), ChainList h a bs → bs.length ≤ fuel →
      free_block_chain fuel h a = some bs := by
  intro bs
  induction bs with
  | nil =>
    intro a fuel hc _
    simp only [ChainList] at hc
    cases fuel <;> simp [free_block_chain, hc]
  | cons x xs ih =>
    intro a fuel hc hl
    obtain ⟨rfl, hx, hrest⟩ := hc
    cases fuel with
    | zero => simp at hl
    | succ fuel =>
      have := ih (h a) fuel hrest (by simpa using hl)
      simp [free_block_chain, hx, this]

theorem memory_pool_destroy_eq {fuel : Nat} {s s' : State} {i : Nat} {evs : List Event}
    (h : memory_pool_destroy fuel s i = some (s', evs)) :
    s' = s.setPool i { s.memory_pools i with
      first_block := NULL, cur_slot := NULL, last_slot := NULL, free_list := NULL } := by
  unfold memory_pool_destroy at h
  simp only at h
  split at h
  · cases h
  · simp only [Option.some.injEq, Prod.mk.injEq] at h
    exact h.1.symm

theorem destroy_loop_state {fuel : Nat} :
    ∀ (n : Nat) {s s' : State} {evs : List Event},
      destroy_loop fuel n s = some (s', evs) →
      s'.heap = s.heap ∧
      ∀ j, s'.memory_pools j =
        if j < n then { s.memory_pools j with
          first_block := NULL, cur_slot := NULL, last_slot := NULL, free_list := NULL }
        else s.memory_pools j := by
  intro n
  induction n with
  | zero =>
    intro s s' evs h
    simp only [destroy_loop, Option.some.injEq, Prod.mk.injEq] at h
    obtain ⟨rfl, -⟩ := h
    simp
  | succ n ih =>
    intro s s' evs h
    simp only [destroy_loop] at h
    split at h
    · cases h
    · rename_i s1 evs1 h1
      split at h
      · cases h
      · rename_i s2 evs2 h2
        simp only [Option.some.injEq, Prod.mk.injEq] at h
        obtain ⟨rfl, -⟩ := h
        obtain ⟨hh, hp⟩ := ih h1
        have he := memory_pool_destroy_eq h2
        subst he
        refine ⟨by simpa [State.setPool] using hh, ?_⟩
        intro j
        by_cases hj : j = n
        · subst hj
          simp [State.setPool, hp]
        · simp only [State.setPool, Function.update_noteq hj, hp]
          have : (j < n + 1) ↔ (j < n) := by omega
          simp [this]

theorem Good_null (h1 h2 : Nat → Nat) : Good h1 h2 NULL := by
  intro n
  cases n <;> simp [Agree]

theorem Good_next {h1 h2 : Nat → Nat} {a : Nat} (hg : Good h1 h2 a) (ha : a ≠ NULL) :
    h1 a = h2 a ∧ Good h1 h2 (h1 a) := by
  have h1' := hg 1
  simp only [Agree, ha, false_or, and_true] at h1'
  refine ⟨h1', fun n => ?_⟩
  have := hg (n + 1)
  simp only [Agree, ha, false_or] at this
  exact this.2

theorem Good_update {h1 h2 : Nat → Nat} {v : Nat} (p : Nat) (hv : Good h1 h2 v) :
    ∀ a, (Good h1 h2 a ∨ a = p) → Good (Function.update h1 p v) (Function.update h2 p v) a := by
  intro a ha n
  induction n generalizing a with
  | zero => simp [Agree]
  | succ n ih =>
    simp only [Agree]
    by_cases h0 : a = NULL
    · exact Or.inl h0
    · right
      by_cases hap : a = p
      · subst hap
        simp only [Function.update_same, true_and]
        exact ih v (Or.inl hv)
      · have hga : Good h1 h2 a := by
          rcases ha with ha | ha
          · exact ha
          · exact absurd ha hap
        obtain ⟨he, hn⟩ := Good_next hga h0
        simp only [Function.update_noteq hap]
        exact ⟨he, ih _ (Or.inl hn)⟩

theorem Sim_store_setPool {J : Nat → Prop} {s1 s2 : State} (hs : Sim J s1 s2)
    {i p v : Nat} (hi : J i) (pool : MemoryPool)
    (hv : Good s1.heap s2.heap v)
    (hfl : pool.free_list = p ∨ pool.free_list = (s1.memory_pools i).free_list)
    (hfb : pool.first_block = p ∨ pool.first_block = (s1.memory_pools i).first_block) :
    Sim J ((s1.store p v).setPool i pool) ((s2.store p v).setPool i pool) := by
  intro j hj
  by_cases hji : j = i
  · subst hji
    simp only [State.setPool, State.store, Function.update_same, true_and]
    obtain ⟨-, hg1, hg2⟩ := hs j hi
    constructor
    · rcases hfl with h | h <;> rw [h]
      · exact Good_update p hv _ (Or.inr rfl)
      · exact Good_update p hv _ (Or.inl hg1)
    · rcases hfb with h | h <;> rw [h]
      · exact Good_update p hv _ (Or.inr rfl)
      · exact Good_update p hv _ (Or.inl hg2)
  · obtain ⟨he, hg1, hg2⟩ := hs j hj
    simp only [State.setPool, State.store, Function.update_noteq hji]
    exact ⟨he, Good_update p hv _ (Or.inl hg1), Good_update p hv _ (Or.inl hg2)⟩

theorem Sim_setPool {J : Nat → Prop} {s1 s2 : State} (hs : Sim J s1 s2)
    {i : Nat} (hi : J i) (pool : MemoryPool)
    (hfl : Good s1.heap s2.heap pool.free_list)
    (hfb : Good s1.heap s2.heap pool.first_block) :
    Sim J (s1.setPool i pool) (s2.setPool i pool) := by
  intro j hj
  by_cases hji : j = i
  · subst hji
    simpa [State.setPool] using ⟨hfl, hfb⟩
  · simpa [State.setPool, Function.update_noteq hji] using hs j hj

theorem Sim_step {J : Nat → Prop} {s1 s2 : State} (hs : Sim J s1 s2) (c : Call)
    (hc : c.within J) :
    (step s1 c).val = (step s2 c).val ∧ (step s1 c).events = (step s2 c).events ∧
      Sim J (step s1 c).state (step s2 c).state := by
  cases c with
  | alloc size sys =>
    simp only [step]
    by_cases hbig : size > MAX_SLOT_SIZE
    · rw [pool_alloc_big s1 sys hbig, pool_alloc_big s2 sys hbig]
      exact ⟨rfl, rfl, hs⟩
    · cases hg : get_memory_pool size with
      | none =>
        have e1 : ∀ s : State, pool_alloc s size sys = ⟨NULL, s, []⟩ := by
          intro s; simp [pool_alloc, hbig, hg]
        rw [e1 s1, e1 s2]
        exact ⟨rfl, rfl, hs⟩
      | some i =>
        have hi : J i := hc i hg
        obtain ⟨he, hg1, hg2⟩ := hs i hi
        by_cases hf : (s1.memory_pools i).free_list = NULL
        · have hf2 : (s2.memory_pools i).free_list = NULL := he ▸ hf
          by_cases hcl : (s1.memory_pools i).last_slot ≤ (s1.memory_pools i).cur_slot
          · have hcl2 : (s2.memory_pools i).last_slot ≤ (s2.memory_pools i).cur_slot := he ▸ hcl
            by_cases hsys : sys = NULL
            · subst hsys
              rw [pool_alloc_fail s1 hg hf hcl, pool_alloc_fail s2 hg hf2 hcl2, ← he]
              exact ⟨rfl, rfl, hs⟩
            · rw [pool_alloc_grow s1 hg hf hcl hsys, pool_alloc_grow s2 hg hf2 hcl2 hsys,
                allocate_new_block_state s1 i hsys, allocate_new_block_state s2 i hsys, ← he]
              simp only [take_cur_slot, State.setPool, State.store, Function.update_same,
                Function.update_idem, true_and]
              exact Sim_store_setPool hs hi _ hg2 (Or.inr rfl) (Or.inl rfl)
          · have hcl1 : (s1.memory_pools i).cur_slot < (s1.memory_pools i).last_slot := by omega
            have hcl2 : (s2.memory_pools i).cur_slot < (s2.memory_pools i).last_slot := he ▸ hcl1
            rw [pool_alloc_bump s1 sys hg hf hcl1, pool_alloc_bump s2 sys hg hf2 hcl2]
            simp only [take_cur_slot, ← he, true_and]
            exact Sim_setPool hs hi _ hg1 hg2
        · have hf2 : (s2.memory_pools i).free_list ≠ NULL := he ▸ hf
          rw [pool_alloc_pop s1 sys hg hf, pool_alloc_pop s2 sys hg hf2, ← he]
          obtain ⟨hw, hn⟩ := Good_next hg1 hf
          simp only [← hw, true_and]
          exact Sim_setPool hs hi _ hn hg2
  | free ptr size =>
    simp only [step]
    by_cases hp : ptr = NULL
    · have e1 : ∀ s : State, pool_free s ptr size = (s, []) := by
        intro s; simp [pool_free, hp]
      rw [e1 s1, e1 s2]
      exact ⟨trivial, rfl, hs⟩
    · by_cases hbig : size > MAX_SLOT_SIZE
      · rw [pool_free_big s1 hbig hp, pool_free_big s2 hbig hp]
        exact ⟨trivial, rfl, hs⟩
      · cases hg : get_memory_pool size with
        | none =>
          have e1 : ∀ s : State, pool_free s ptr size = (s, []) := by
            intro s; simp [pool_free, hp, hbig, hg]
          rw [e1 s1, e1 s2]
          exact ⟨trivial, rfl, hs⟩
        | some i =>
          have hi : J i := hc i hg
          obtain ⟨he, hg1, -⟩ := hs i hi
          rw [pool_free_small s1 hg hp, pool_free_small s2 hg hp]
          simp only [insert_into_free_list, ← he, true_and]
          exact Sim_store_setPool hs hi _ hg1 (Or.inl rfl) (Or.inr rfl)

theorem Sim_run {J : Nat → Prop} (calls : List Call) :
    ∀ {s1 s2 : State}, Sim J s1 s2 → (∀ c ∈ calls, c.within J) → run s1 calls = run s2 calls := by
  induction calls with
  | nil => intros; rfl
  | cons c cs ih =>
    intro s1 s2 hs hc
    obtain ⟨hv, he, hs'⟩ := Sim_step hs c (hc c (List.mem_cons_self _ _))
    simp only [run, hv, he]
    rw [ih hs' (fun c' hc' => hc c' (List.mem_cons_of_mem _ hc'))]

theorem get_memory_pool_within_all (c : Call) :
    c.within (fun j => j < MEMORY_POOL_NUM) :=
  fun _ hg => (get_memory_pool_lt hg).1

theorem Sim_init_init (s1 s2 : State) :
    Sim (fun j => j < MEMORY_POOL_NUM) (init_memory_pools s1) (init_memory_pools s2) := by
  intro j hj
  rw [init_memory_pools_pool s1 j hj, init_memory_pools_pool s2 j hj]
  exact ⟨rfl, Good_null _ _, Good_null _ _⟩

/-! ## Invariant of contract-obeying use -/

theorem blocksOf_cons (k b : Nat) (owned : List (Nat × Nat)) (i : Nat) :
    blocksOf ((k, b) :: owned) i = if k = i then b :: blocksOf owned i else blocksOf owned i := by
  by_cases h : k = i <;> simp [blocksOf, List.filter_cons, h]

theorem mem_blocksOf {owned : List (Nat × Nat)} {i b : Nat} :
    b ∈ blocksOf owned i ↔ (i, b) ∈ owned := by
  simp only [blocksOf, List.mem_map, List.mem_filter, decide_eq_true_eq]
  constructor
  · rintro ⟨⟨k, b'⟩, ⟨hm, hk⟩, hb⟩
    simp only at hk hb
    subst hk hb
    exact hm
  · intro h
    exact ⟨(i, b), ⟨h, rfl⟩, rfl⟩

theorem liveOf_cons (p sz : Nat) (live : List (Nat × Nat)) (i : Nat) :
    liveOf ((p, sz) :: live) i =
      if get_memory_pool sz = some i then p :: liveOf live i else liveOf live i := by
  by_cases h : get_memory_pool sz = some i <;> simp [liveOf, List.filter_cons, h]

theorem liveOf_append (l1 l2 : List (Nat × Nat)) (i : Nat) :
    liveOf (l1 ++ l2) i = liveOf l1 i ++ liveOf l2 i := by
  simp [liveOf]

theorem mem_liveOf {live : List (Nat × Nat)} {i p : Nat} :
    p ∈ liveOf live i ↔ ∃ sz, (p, sz) ∈ live ∧ get_memory_pool sz = some i := by
  simp only [liveOf, List.mem_map, List.mem_filter, decide_eq_true_eq]
  constructor
  · rintro ⟨⟨p', sz⟩, ⟨hm, hk⟩, hb⟩
    simp only at hk hb
    subst hb
    exact ⟨sz, hm, hk⟩
  · rintro ⟨sz, hm, hk⟩
    exact ⟨(p, sz), ⟨hm, hk⟩, rfl⟩

theorem ChainList_update {h : Nat → Nat} (p v : Nat) :
    ∀ (l : List Nat) (a : Nat), ChainList h a l → p ∉ l →
      ChainList (Function.update h p v) a l := by
  intro l
  induction l with
  | nil => intro a hc _; exact hc
  | cons x xs ih =>
    intro a hc hp
    obtain ⟨rfl, hx, hrest⟩ := hc
    have hne : a ≠ p := fun e => hp (e ▸ List.mem_cons_self _ _)
    refine ⟨rfl, hx, ?_⟩
    rw [Function.update_noteq hne]
    exact ih _ hrest (fun hm => hp (List.mem_cons_of_mem _ hm))

theorem ChainList_head {h : Nat → Nat} {a : Nat} {l : List Nat} (hc : ChainList h a l)
    (ha : a ≠ NULL) : ∃ rest, l = a :: rest ∧ ChainList h (h a) rest := by
  cases l with
  | nil => exact absurd hc ha
  | cons x xs =>
    obtain ⟨rfl, -, hrest⟩ := hc
    exact ⟨xs, rfl, hrest⟩

theorem ChainList_null {h : Nat → Nat} {a : Nat} {l : List Nat} (hc : ChainList h a l)
    (ha : a = NULL) : l = [] := by
  cases l with
  | nil => rfl
  | cons x xs =>
    obtain ⟨rfl, hx, -⟩ := hc
    exact absurd ha hx

/-- Two multiples of `ss` one of which lies within `ss` bytes behind the other
are equal. -/
theorem slot_eq_of_within {ss p q : Nat} (hp : ss ∣ p) (hq : ss ∣ q)
    (h1 : p ≤ q) (h2 : q < p + ss) : p = q := by
  obtain ⟨k, rfl⟩ := hp
  obtain ⟨m, rfl⟩ := hq
  have hss : 0 < ss := by
    rcases Nat.eq_zero_or_pos ss with h | h
    · subst h; simp at h2
    · exact h
  have hkm : k ≤ m := Nat.le_of_mul_le_mul_left h1 hss
  have hmk : m < k + 1 := by
    apply Nat.lt_of_mul_lt_mul_left (a := ss)
    rw [Nat.mul_add, Nat.mul_one]
    exact h2
  have : k = m := by omega
  rw [this]

theorem PoolInv.update_heap {h : Nat → Nat} {bl lv fr : List Nat} {i : Nat} {pool : MemoryPool}
    (hI : PoolInv h bl lv fr i pool) (a v : Nat) (h1 : a ∉ bl) (h2 : a ∉ fr) :
    PoolInv (Function.update h a v) bl lv fr i pool :=
  { hI with
    chain := ChainList_update a v _ _ hI.chain h1
    free_chain := ChainList_update a v _ _ hI.free_chain h2 }

theorem PoolInv.slot_pos {h : Nat → Nat} {bl lv fr : List Nat} {i : Nat} {pool : MemoryPool}
    (hI : PoolInv h bl lv fr i pool) (hi : i < MEMORY_POOL_NUM) :
    0 < pool.slot_size ∧ pool.slot_size ≤ MAX_SLOT_SIZE := by
  rw [hI.slot_size_eq]
  simp only [SLOT_BASE_SIZE, MAX_SLOT_SIZE, MEMORY_POOL_NUM] at *
  omega

/-- Fast path: the head of the free list moves from the free list to the
caller. -/
theorem PoolInv.pop {h : Nat → Nat} {bl lv fr : List Nat} {i : Nat} {pool : MemoryPool}
    (hI : PoolInv h bl lv fr i pool) (hf : pool.free_list ≠ NULL) :
    ∃ rest, fr = pool.free_list :: rest ∧
      PoolInv h bl (pool.free_list :: lv) rest i
        { pool with free_list := h pool.free_list } := by
  obtain ⟨rest, hrest, hch⟩ := ChainList_head hI.free_chain hf
  refine ⟨rest, hrest, ?_⟩
  subst hrest
  have hperm : (pool.free_list :: lv ++ rest).Perm (lv ++ pool.free_list :: rest) :=
    List.perm_middle.symm
  exact {
    slot_size_eq := hI.slot_size_eq
    block_size_eq := hI.block_size_eq
    chain := hI.chain
    free_chain := hch
    cursor := hI.cursor
    slots := fun q hq => hI.slots q (hperm.mem_iff.mp hq)
    nodup := hperm.nodup_iff.mpr hI.nodup }

/-- Bump path: the slot at the cursor goes to the caller. -/
theorem PoolInv.bump {h : Nat → Nat} {bl lv fr : List Nat} {i : Nat} {pool : MemoryPool}
    (hI : PoolInv h bl lv fr i pool) (hi : i < MEMORY_POOL_NUM)
    (hc : pool.cur_slot < pool.last_slot)
    (hd : ∀ b ∈ bl, b = pool.first_block ∨
      b + BLOCK_SIZE ≤ pool.first_block ∨ pool.first_block + BLOCK_SIZE ≤ b) :
    pool.cur_slot ≠ NULL ∧ pool.first_block ≠ NULL ∧
    pool.first_block + SIZEOF_SLOT_PTR ≤ pool.cur_slot ∧
    pool.cur_slot + pool.slot_size ≤ pool.first_block + BLOCK_SIZE ∧
    PoolInv h bl (pool.cur_slot :: lv) fr i
      { pool with cur_slot := pool.cur_slot + pool.slot_size } := by
  obtain ⟨hpos, h512⟩ := hI.slot_pos hi
  rcases hI.cursor with ⟨-, h2, h3⟩ | ⟨hfb, hlo, hdv, hlast⟩
  · rw [h2, h3] at hc
    exact absurd hc (Nat.lt_irrefl _)
  have hhi : pool.cur_slot + pool.slot_size ≤ pool.first_block + BLOCK_SIZE := by
    simp only [SIZEOF_SLOT_PTR, BLOCK_SIZE, MAX_SLOT_SIZE] at *
    omega
  obtain ⟨rest, hbl, -⟩ := ChainList_head hI.chain hfb
  have hmem : pool.first_block ∈ bl := by rw [hbl]; exact List.mem_cons_self _ _
  refine ⟨?_, hfb, hlo, hhi, ?_⟩
  · simp only [NULL, SIZEOF_SLOT_PTR] at *
    omega
  have hnew : pool.cur_slot ∉ lv ++ fr := by
    intro hm
    obtain ⟨-, b, hb, hb1, hb2, hb3⟩ := hI.slots _ hm
    rcases hd b hb with e | e | e
    · exact absurd (hb3 e) (Nat.lt_irrefl _)
    · simp only [SIZEOF_SLOT_PTR, BLOCK_SIZE] at *
      omega
    · simp only [SIZEOF_SLOT_PTR, BLOCK_SIZE] at *
      omega
  exact {
    slot_size_eq := hI.slot_size_eq
    block_size_eq := hI.block_size_eq
    chain := hI.chain
    free_chain := hI.free_chain
    cursor := Or.inr ⟨hfb, Nat.le_trans hlo (Nat.le_add_right _ _),
      Nat.dvd_add hdv (Nat.dvd_refl _), hlast⟩
    slots := by
      intro q hq
      rw [List.cons_append, List.mem_cons] at hq
      rcases hq with rfl | hq
      · exact ⟨hdv, pool.first_block, hmem, hlo, hhi, fun _ => Nat.lt_add_of_pos_right hpos⟩
      · obtain ⟨q1, b, hb, hb1, hb2, hb3⟩ := hI.slots q hq
        exact ⟨q1, b, hb, hb1, hb2, fun e => Nat.lt_of_lt_of_le (hb3 e) (Nat.le_add_right _ _)⟩
    nodup := by
      rw [List.cons_append]
      exact List.nodup_cons.mpr ⟨hnew, hI.nodup⟩ }

/-- Growth: a block disjoint from the blocks of the pool becomes its current
block. -/
theorem PoolInv.grow {h : Nat → Nat} {bl lv fr : List Nat} {i : Nat} {pool : MemoryPool}
    (hI : PoolInv h bl lv fr i pool) (hi : i < MEMORY_POOL_NUM) {sys : Nat} (hsys : sys ≠ NULL)
    (hfresh : ∀ b ∈ bl, sys + BLOCK_SIZE ≤ b ∨ b + BLOCK_SIZE ≤ sys) (hfr : sys ∉ fr) :
    PoolInv (Function.update h sys pool.first_block) (sys :: bl) lv fr i
      { pool with
        first_block := sys
        cur_slot := sys + SIZEOF_SLOT_PTR + pad_pointer (sys + SIZEOF_SLOT_PTR) pool.slot_size
        last_slot := sys + pool.block_size - pool.slot_size + 1 } := by
  obtain ⟨hpos, h512⟩ := hI.slot_pos hi
  obtain ⟨g1, g2, -, -⟩ := grown_slot_valid sys hpos h512
  have hnb : sys ∉ bl := by
    intro hm
    have := hfresh sys hm
    simp only [BLOCK_SIZE] at this
    omega
  exact {
    slot_size_eq := hI.slot_size_eq
    block_size_eq := hI.block_size_eq
    chain := by
      refine ⟨rfl, hsys, ?_⟩
      rw [Function.update_same]
      exact ChainList_update sys _ _ _ hI.chain hnb
    free_chain := ChainList_update sys _ _ _ hI.free_chain hfr
    cursor := Or.inr ⟨hsys, g2, g1, by simp only [hI.block_size_eq]⟩
    slots := by
      intro q hq
      obtain ⟨q1, b, hb, hb1, hb2, -⟩ := hI.slots q hq
      refine ⟨q1, b, List.mem_cons_of_mem _ hb, hb1, hb2, ?_⟩
      intro e
      simp only at e
      exact absurd (e ▸ hb) hnb
    nodup := hI.nodup }

/-- Release: a slot held by the caller becomes the head of the free list. -/
theorem PoolInv.free {h : Nat → Nat} {bl lv1 lv2 fr : List Nat} {i p : Nat} {pool : MemoryPool}
    (hI : PoolInv h bl (lv1 ++ p :: lv2) fr i pool) (hp : p ≠ NULL) (hpb : p ∉ bl) :
    PoolInv (Function.update h p pool.free_list) bl (lv1 ++ lv2) (p :: fr) i
      { pool with free_list := p } := by
  have hperm : (lv1 ++ lv2 ++ p :: fr).Perm (lv1 ++ p :: lv2 ++ fr) := by
    have e1 : (lv1 ++ lv2 ++ p :: fr).Perm (p :: (lv1 ++ lv2 ++ fr)) := List.perm_middle
    have e2 : (lv1 ++ p :: lv2 ++ fr).Perm (p :: (lv1 ++ lv2 ++ fr)) := by
      have : lv1 ++ p :: lv2 ++ fr = lv1 ++ p :: (lv2 ++ fr) := by simp
      rw [this]
      simp
    exact e1.trans e2.symm
  have hpf : p ∉ fr := by
    have hnd := hI.nodup
    rw [List.nodup_append] at hnd
    exact fun hm => hnd.2.2 (List.mem_append_right _ (List.mem_cons_self _ _)) hm
  exact {
    slot_size_eq := hI.slot_size_eq
    block_size_eq := hI.block_size_eq
    chain := ChainList_update p _ _ _ hI.chain hpb
    free_chain := by
      refine ⟨rfl, hp, ?_⟩
      rw [Function.update_same]
      exact ChainList_update p _ _ _ hI.free_chain hpf
    cursor := hI.cursor
    slots := fun q hq => hI.slots q (hperm.mem_iff.mp hq)
    nodup := hperm.nodup_iff.mpr hI.nodup }

/-! ### Separation facts -/

theorem Inv.block_sep {w : World} {owned : List (Nat × Nat)} {frees : Nat → List Nat}
    (hI : Inv w owned frees) {i j b b' : Nat}
    (h1 : b ∈ blocksOf owned i) (h2 : b' ∈ blocksOf owned j) :
    (i = j ∧ b = b') ∨ b + BLOCK_SIZE ≤ b' ∨ b' + BLOCK_SIZE ≤ b := by
  rw [mem_blocksOf] at h1 h2
  by_cases he : (i, b) = (j, b')
  · left
    simpa using he
  · right
    exact hI.globals.owned_disj.forall (fun _ _ hxy => hxy.symm) h1 h2 he

/-- An address inside a pooled live allocation is neither a block base nor a
free slot of any pool. -/
theorem Inv.live_sep {w : World} {owned : List (Nat × Nat)} {frees : Nat → List Nat}
    (hI : Inv w owned frees) {i p a : Nat} (hi : i < MEMORY_POOL_NUM)
    (hp : p ∈ liveOf w.live i) (h1 : p ≤ a)
    (h2 : a < p + (w.state.memory_pools i).slot_size) :
    ∀ j, j < MEMORY_POOL_NUM → a ∉ blocksOf owned j ∧ a ∉ frees j := by
  have hPi := hI.pools i hi
  obtain ⟨hdv, b, hb, hb1, hb2, -⟩ := hPi.slots p (List.mem_append_left _ hp)
  intro j hj
  have hPj := hI.pools j hj
  constructor
  · intro hm
    rcases hI.block_sep hb hm with ⟨-, e⟩ | e | e <;>
      simp only [SIZEOF_SLOT_PTR, BLOCK_SIZE] at * <;> omega
  · intro hm
    obtain ⟨hdv', b', hb', hb1', hb2', -⟩ := hPj.slots a (List.mem_append_right _ hm)
    have hposj := (hPj.slot_pos hj).1
    rcases hI.block_sep hb hb' with ⟨e1, -⟩ | e | e
    · subst e1
      have hpa : p = a := slot_eq_of_within hdv hdv' h1 h2
      subst hpa
      have hnd := hPi.nodup
      rw [List.nodup_append] at hnd
      exact hnd.2.2 hp hm
    · simp only [SIZEOF_SLOT_PTR, BLOCK_SIZE] at *
      omega
    · simp only [SIZEOF_SLOT_PTR, BLOCK_SIZE] at *
      omega

/-- An address inside a live raw allocation is neither a block base nor a
free slot of any pool. -/
theorem Inv.big_sep {w : World} {owned : List (Nat × Nat)} {frees : Nat → List Nat}
    (hI : Inv w owned frees) {e : Nat × Nat} {a : Nat} (he : e ∈ w.live)
    (hb : e.2 > MAX_SLOT_SIZE) (h1 : e.1 ≤ a) (h2 : a < e.1 + e.2) :
    ∀ j, j < MEMORY_POOL_NUM → a ∉ blocksOf owned j ∧ a ∉ frees j := by
  intro j hj
  have hPj := hI.pools j hj
  constructor
  · intro hm
    have := hI.globals.big_owned e he hb (j, a) (mem_blocksOf.mp hm)
    simp only [BLOCK_SIZE] at this
    omega
  · intro hm
    obtain ⟨-, b', hb', hb1', hb2', -⟩ := hPj.slots a (List.mem_append_right _ hm)
    have hposj := (hPj.slot_pos hj).1
    have := hI.globals.big_owned e he hb (j, b') (mem_blocksOf.mp hb')
    simp only [SIZEOF_SLOT_PTR, BLOCK_SIZE] at *
    omega

/-- A fresh block is disjoint from every block of every pool and is not a
free slot. -/
theorem Inv.fresh_sep {w : World} {owned : List (Nat × Nat)} {frees : Nat → List Nat}
    (hI : Inv w owned frees) {sys : Nat} (hf : FreshRegion w.regions sys BLOCK_SIZE) :
    ∀ j, j < MEMORY_POOL_NUM →
      (∀ b ∈ blocksOf owned j, sys + BLOCK_SIZE ≤ b ∨ b + BLOCK_SIZE ≤ sys) ∧
      sys ∉ frees j := by
  intro j hj
  have hPj := hI.pools j hj
  have key : ∀ b ∈ blocksOf owned j, sys + BLOCK_SIZE ≤ b ∨ b + BLOCK_SIZE ≤ sys := by
    intro b hb
    exact hf _ (hI.globals.owned_regions _ (mem_blocksOf.mp hb))
  refine ⟨key, ?_⟩
  intro hm
  obtain ⟨-, b', hb', hb1', hb2', -⟩ := hPj.slots sys (List.mem_append_right _ hm)
  have hposj := (hPj.slot_pos hj).1
  have := key b' hb'
  simp only [SIZEOF_SLOT_PTR, BLOCK_SIZE] at *
  omega

/-! ### Preservation -/

theorem Inv_init (s0 : State) :
    Inv ⟨init_memory_pools s0, [], []⟩ [] (fun _ => []) := by
  refine ⟨?_, List.Pairwise.nil, ?_, ?_, ?_, ?_, List.Pairwise.nil⟩
  · intro i hi
    simp only [init_memory_pools_pool s0 i hi]
    exact {
      slot_size_eq := rfl
      block_size_eq := rfl
      chain := rfl
      free_chain := rfl
      cursor := Or.inl ⟨rfl, rfl, rfl⟩
      slots := fun q hq => by simp [liveOf] at hq
      nodup := by simp [liveOf] }
  all_goals
    intro e he
    simp at he

theorem GlobalInv.cons_small {live regions owned : List (Nat × Nat)}
    (hG : GlobalInv live regions owned) {p size : Nat} (hp : p ≠ NULL) (h0 : 0 < size)
    (hs : size ≤ MAX_SLOT_SIZE) : GlobalInv ((p, size) :: live) regions owned := by
  have hnb : ¬ size > MAX_SLOT_SIZE := Nat.not_lt.mpr hs
  exact {
    owned_disj := hG.owned_disj
    owned_regions := hG.owned_regions
    live_ok := by
      intro e he
      rcases List.mem_cons.mp he with rfl | he
      · exact ⟨hp, h0⟩
      · exact hG.live_ok e he
    big_regions := by
      intro e he hb
      rcases List.mem_cons.mp he with rfl | he
      · exact absurd hb hnb
      · exact hG.big_regions e he hb
    big_owned := by
      intro e he hb
      rcases List.mem_cons.mp he with rfl | he
      · exact absurd hb hnb
      · exact hG.big_owned e he hb
    big_distinct := by
      rw [List.filter_cons_of_neg (by simpa using hs)]
      exact hG.big_distinct }

theorem GlobalInv.cons_big {live regions owned : List (Nat × Nat)}
    (hG : GlobalInv live regions owned) {sys size : Nat} (hp : sys ≠ NULL)
    (hs : size > MAX_SLOT_SIZE) (hf : FreshRegion regions sys size) :
    GlobalInv ((sys, size) :: live) ((sys, size) :: regions) owned := by
  exact {
    owned_disj := hG.owned_disj
    owned_regions := fun e he => List.mem_cons_of_mem _ (hG.owned_regions e he)
    live_ok := by
      intro e he
      rcases List.mem_cons.mp he with rfl | he
      · exact ⟨hp, Nat.lt_of_le_of_lt (Nat.zero_le _) hs⟩
      · exact hG.live_ok e he
    big_regions := by
      intro e he hb
      rcases List.mem_cons.mp he with rfl | he
      · exact List.mem_cons_self _ _
      · exact List.mem_cons_of_mem _ (hG.big_regions e he hb)
    big_owned := by
      intro e he hb o ho
      rcases List.mem_cons.mp he with rfl | he
      · exact hf _ (hG.owned_regions o ho)
      · exact hG.big_owned e he hb o ho
    big_distinct := by
      rw [List.filter_cons_of_pos (by simpa using hs)]
      refine List.pairwise_cons.mpr ⟨?_, hG.big_distinct⟩
      intro e he
      rw [List.mem_filter] at he
      have hb : e.2 > MAX_SLOT_SIZE := by simpa using he.2
      have := hf e (hG.big_regions e he.1 hb)
      simp only [MAX_SLOT_SIZE] at *
      omega }

theorem GlobalInv.add_block {live regions owned : List (Nat × Nat)}
    (hG : GlobalInv live regions owned) (i : Nat) {sys : Nat}
    (hf : FreshRegion regions sys BLOCK_SIZE) :
    GlobalInv live ((sys, BLOCK_SIZE) :: regions) ((i, sys) :: owned) := by
  exact {
    owned_disj := by
      refine List.pairwise_cons.mpr ⟨?_, hG.owned_disj⟩
      intro e he
      exact hf _ (hG.owned_regions e he)
    owned_regions := by
      intro e he
      rcases List.mem_cons.mp he with rfl | he
      · exact List.mem_cons_self _ _
      · exact List.mem_cons_of_mem _ (hG.owned_regions e he)
    live_ok := hG.live_ok
    big_regions := fun e he hb => List.mem_cons_of_mem _ (hG.big_regions e he hb)
    big_owned := by
      intro e he hb o ho
      rcases List.mem_cons.mp ho with rfl | ho
      · have := hf e (hG.big_regions e he hb)
        simp only at this ⊢
        omega
      · exact hG.big_owned e he hb o ho
    big_distinct := hG.big_distinct }

theorem GlobalInv.remove_small {l1 l2 regions owned : List (Nat × Nat)} {e : Nat × Nat}
    (hG : GlobalInv (l1 ++ e :: l2) regions owned) (hs : e.2 ≤ MAX_SLOT_SIZE) :
    GlobalInv (l1 ++ l2) regions owned := by
  have hsub : ∀ x ∈ l1 ++ l2, x ∈ l1 ++ e :: l2 := by
    intro x hx
    rcases List.mem_append.mp hx with h | h
    · exact List.mem_append_left _ h
    · exact List.mem_append_right _ (List.mem_cons_of_mem _ h)
  exact {
    owned_disj := hG.owned_disj
    owned_regions := hG.owned_regions
    live_ok := fun x hx => hG.live_ok x (hsub x hx)
    big_regions := fun x hx => hG.big_regions x (hsub x hx)
    big_owned := fun x hx => hG.big_owned x (hsub x hx)
    big_distinct := by
      have := hG.big_distinct
      rw [List.filter_append, List.filter_cons_of_neg (by simpa using hs)] at this
      rw [List.filter_append]
      exact this }

theorem GlobalInv.remove_big {l1 l2 regions owned : List (Nat × Nat)} {e : Nat × Nat}
    (hG : GlobalInv (l1 ++ e :: l2) regions owned) (hs : e.2 > MAX_SLOT_SIZE) :
    GlobalInv (l1 ++ l2) (regions.filter (fun x => x.1 ≠ e.1)) owned := by
  have hsub : ∀ x ∈ l1 ++ l2, x ∈ l1 ++ e :: l2 := by
    intro x hx
    rcases List.mem_append.mp hx with h | h
    · exact List.mem_append_left _ h
    · exact List.mem_append_right _ (List.mem_cons_of_mem _ h)
  have hemem : e ∈ l1 ++ e :: l2 := List.mem_append_right _ (List.mem_cons_self _ _)
  have hd := hG.big_distinct
  rw [List.filter_append, List.filter_cons_of_pos (by simpa using hs), List.pairwise_append,
    List.pairwise_cons] at hd
  obtain ⟨hd1, ⟨hd2, hd3⟩, hd4⟩ := hd
  exact {
    owned_disj := hG.owned_disj
    owned_regions := by
      intro o ho
      refine List.mem_filter.mpr ⟨hG.owned_regions o ho, ?_⟩
      have := hG.big_owned e hemem hs o ho
      simp only [MAX_SLOT_SIZE, BLOCK_SIZE, ne_eq, decide_not, Bool.not_eq_true',
        decide_eq_false_iff_not] at *
      omega
    live_ok := fun x hx => hG.live_ok x (hsub x hx)
    big_regions := by
      intro x hx hb
      refine List.mem_filter.mpr ⟨hG.big_regions x (hsub x hx) hb, ?_⟩
      simp only [ne_eq, decide_not, Bool.not_eq_true', decide_eq_false_iff_not]
      rcases List.mem_append.mp hx with h | h
      · exact hd4 x (List.mem_filter.mpr ⟨h, by simpa using hb⟩) e (List.mem_cons_self _ _)
      · exact fun heq => hd2 x (List.mem_filter.mpr ⟨h, by simpa using hb⟩) heq.symm
    big_owned := fun x hx => hG.big_owned x (hsub x hx)
    big_distinct := by
      rw [List.filter_append, List.pairwise_append]
      exact ⟨hd1, hd3, fun a ha b hb => hd4 a ha b (List.mem_cons_of_mem _ hb)⟩ }

theorem get_memory_pool_none_of_big {size : Nat} (h : size > MAX_SLOT_SIZE) :
    get_memory_pool size = none := by
  simp [get_memory_pool, h]

theorem World.acquired_of_none (w : World) {size : Nat} (sys : Nat)
    (hg : get_memory_pool size = none) : w.acquired size sys = [] := by
  simp [World.acquired, hg]

theorem World.acquired_null (w : World) (size : Nat) : w.acquired size NULL = [] := by
  unfold World.acquired
  split <;> simp

theorem World.acquired_of_no_malloc (w : World) (size sys : Nat)
    (h : ∀ n, Event.malloc n sys ∉ (pool_alloc w.state size sys).events) :
    w.acquired size sys = [] := by
  unfold World.acquired
  split
  · rw [if_neg]
    exact fun hc => h _ hc.2
  · rfl

theorem World.acquired_grow (w : World) {size i sys : Nat}
    (hg : get_memory_pool size = some i) (hf : (w.state.memory_pools i).free_list = NULL)
    (hc : (w.state.memory_pools i).last_slot ≤ (w.state.memory_pools i).cur_slot)
    (hsys : sys ≠ NULL) : w.acquired size sys = [(i, sys)] := by
  simp [World.acquired, hg, pool_alloc_grow w.state hg hf hc hsys, take_cur_slot, hsys]

/-- The world after `pool_alloc`, with the block the call obtained for a pool
added to the acquisitions. -/
theorem Inv_alloc_acquired {w : World} {owned : List (Nat × Nat)} {frees : Nat → List Nat}
    (hI : Inv w owned frees) (size sys : Nat)
    (hfresh : sys ≠ NULL → ∀ n, Event.malloc n sys ∈ (pool_alloc w.state size sys).events →
      FreshRegion w.regions sys n) :
    ∃ frees', Inv ⟨(pool_alloc w.state size sys).state,
        if (pool_alloc w.state size sys).val = NULL then w.live
        else ((pool_alloc w.state size sys).val, size) :: w.live,
        (pool_alloc w.state size sys).events.foldl Event.apply w.regions⟩
      (w.acquired size sys ++ owned) frees' := by
  obtain ⟨st, live, regions⟩ := w
  have hI0 := hI
  obtain ⟨hP, hG⟩ := hI
  simp only at hP hG hfresh ⊢
  by_cases hbig : size > MAX_SLOT_SIZE
  · -- raw allocation
    rw [World.acquired_of_none _ sys (get_memory_pool_none_of_big hbig), List.nil_append]
    rw [pool_alloc_big st sys hbig] at hfresh ⊢
    simp only [List.foldl_cons, List.foldl_nil, Event.apply]
    by_cases hsys : sys = NULL
    · simp only [hsys, if_true]
      exact ⟨frees, hP, hG⟩
    · simp only [hsys, if_false]
      refine ⟨frees, ?_, hG.cons_big hsys hbig (hfresh hsys size (List.mem_singleton.mpr rfl))⟩
      intro j hj
      simp only [liveOf_cons, get_memory_pool_none_of_big hbig]
      exact hP j hj
  cases hg : get_memory_pool size with
  | none =>
    have e1 : pool_alloc st size sys = ⟨NULL, st, []⟩ := by
      simp [pool_alloc, hbig, hg]
    rw [World.acquired_of_none _ sys hg, List.nil_append, e1]
    exact ⟨frees, hP, hG⟩
  | some i =>
    obtain ⟨hi, hs1, hs2, -, -⟩ := get_memory_pool_lt hg
    have hne : ∀ j, j ≠ i → ¬ (some i = some j) := fun j hj e => hj (Option.some.inj e).symm
    by_cases hf : (st.memory_pools i).free_list = NULL
    · by_cases hcl : (st.memory_pools i).last_slot ≤ (st.memory_pools i).cur_slot
      · by_cases hsys : sys = NULL
        · -- the system allocator fails
          subst hsys
          rw [World.acquired_null, List.nil_append, pool_alloc_fail st hg hf hcl]
          simp only [List.foldl_cons, List.foldl_nil, Event.apply, if_true]
          exact ⟨frees, hP, hG⟩
        · -- growth, then the first slot of the new block
          have hbs := (hP i hi).block_size_eq
          rw [World.acquired_grow ⟨st, live, regions⟩ hg hf hcl hsys, List.singleton_append]
          rw [pool_alloc_grow st hg hf hcl hsys] at hfresh ⊢
          have hfr : FreshRegion regions sys BLOCK_SIZE := by
            apply hfresh hsys
            simp [take_cur_slot, hbs]
          have hsep := hI0.fresh_sep hfr
          have hgrow := (hP i hi).grow hi hsys (hsep i hi).1 (hsep i hi).2
          obtain ⟨hpos, h512⟩ := (hP i hi).slot_pos hi
          obtain ⟨-, -, -, glt⟩ := grown_slot_valid sys hpos h512
          have hbump := hgrow.bump hi (by simpa [hbs] using glt) (by
            intro b hb
            rcases List.mem_cons.mp hb with rfl | hb
            · exact Or.inl rfl
            · right
              rcases (hsep i hi).1 b hb with e | e
              · exact Or.inr e
              · exact Or.inl e)
          obtain ⟨hnn, -, -, -, hPi⟩ := hbump
          simp only [take_cur_slot, allocate_new_block_state st i hsys, State.setPool, State.store,
            Function.update_same, Function.update_idem, List.foldl_cons, List.foldl_nil,
            Event.apply, hsys, if_false, hbs, List.foldl_append] at hnn hPi ⊢
          rw [if_neg hnn]
          refine ⟨frees, ?_, (hG.add_block i hfr).cons_small hnn hs1 hs2⟩
          intro j hj
          by_cases hji : j = i
          · subst hji
            simp only [Function.update_same, liveOf_cons, hg, if_true, blocksOf_cons]
            exact hPi
          · have hij : ¬ i = j := fun e => hji e.symm
            simp only [Function.update_noteq hji, liveOf_cons, hg, hne j hji, if_false,
              blocksOf_cons, hij]
            exact (hP j hj).update_heap sys _
              (fun hm => by
                have := (hsep j hj).1 sys hm
                simp only [BLOCK_SIZE] at this
                omega)
              (hsep j hj).2
      · -- the slot at the cursor
        have hcl1 : (st.memory_pools i).cur_slot < (st.memory_pools i).last_slot := by omega
        rw [World.acquired_of_no_malloc ⟨st, live, regions⟩ size sys (by
          intro n
          rw [pool_alloc_bump st sys hg hf hcl1]
          simp [take_cur_slot]), List.nil_append]
        rw [pool_alloc_bump st sys hg hf hcl1]
        have hbump := (hP i hi).bump hi hcl1 (by
          intro b hb
          obtain ⟨rest, hbl, -⟩ := ChainList_head (hP i hi).chain (by
            rcases (hP i hi).cursor with ⟨-, h2, h3⟩ | ⟨h1, -⟩
            · rw [h2, h3] at hcl1
              exact absurd hcl1 (Nat.lt_irrefl _)
            · exact h1)
          have hm : (st.memory_pools i).first_block ∈ blocksOf owned i := by
            rw [hbl]; exact List.mem_cons_self _ _
          rcases hI0.block_sep hb hm with ⟨-, e⟩ | e
          · exact Or.inl e
          · exact Or.inr e)
        obtain ⟨hnn, -, -, -, hPi⟩ := hbump
        simp only [take_cur_slot, State.setPool, List.foldl_cons, List.foldl_nil,
          Event.apply, List.foldl_append] at hnn hPi ⊢
        rw [if_neg hnn]
        refine ⟨frees, ?_, hG.cons_small hnn hs1 hs2⟩
        intro j hj
        by_cases hji : j = i
        · subst hji
          simp only [Function.update_same, liveOf_cons, hg, if_true]
          exact hPi
        · simp only [Function.update_noteq hji, liveOf_cons, hg, hne j hji, if_false]
          exact hP j hj
    · -- the head of the free list
      rw [World.acquired_of_no_malloc ⟨st, live, regions⟩ size sys (by
        intro n
        rw [pool_alloc_pop st sys hg hf]
        simp), List.nil_append]
      rw [pool_alloc_pop st sys hg hf]
      obtain ⟨rest, hrest, hPi⟩ := (hP i hi).pop hf
      simp only [List.foldl_nil, if_neg hf, State.setPool]
      refine ⟨Function.update frees i rest, ?_, hG.cons_small hf hs1 hs2⟩
      intro j hj
      by_cases hji : j = i
      · subst hji
        simp only [Function.update_same, liveOf_cons, hg, if_true]
        exact hPi
      · simp only [Function.update_noteq hji, liveOf_cons, hg, hne j hji, if_false]
        exact hP j hj

/-- The world after `pool_alloc`. -/
theorem Inv_alloc {w : World} {owned : List (Nat × Nat)} {frees : Nat → List Nat}
    (hI : Inv w owned frees) (size sys : Nat)
    (hfresh : sys ≠ NULL → ∀ n, Event.malloc n sys ∈ (pool_alloc w.state size sys).events →
      FreshRegion w.regions sys n) :
    ∃ owned' frees', Inv ⟨(pool_alloc w.state size sys).state,
        if (pool_alloc w.state size sys).val = NULL then w.live
        else ((pool_alloc w.state size sys).val, size) :: w.live,
        (pool_alloc w.state size sys).events.foldl Event.apply w.regions⟩ owned' frees' :=
  ⟨_, Inv_alloc_acquired hI size sys hfresh⟩

/-- The world after `pool_free` of a live pointer with its size: the
acquisitions are the same. -/
theorem Inv_free_owned {st : State} {l1 l2 regions owned : List (Nat × Nat)} {frees : Nat → List Nat}
    {p size : Nat} (hI : Inv ⟨st, l1 ++ (p, size) :: l2, regions⟩ owned frees) :
    ∃ frees', Inv ⟨(pool_free st p size).1, l1 ++ l2,
        (pool_free st p size).2.foldl Event.apply regions⟩ owned frees' := by
  have hI0 := hI
  obtain ⟨hP, hG⟩ := hI
  simp only at hP hG ⊢
  have hmem : (p, size) ∈ l1 ++ (p, size) :: l2 :=
    List.mem_append_right _ (List.mem_cons_self _ _)
  obtain ⟨hp, h0⟩ := hG.live_ok _ hmem
  simp only at hp h0
  by_cases hbig : size > MAX_SLOT_SIZE
  · rw [pool_free_big st hbig hp]
    simp only [List.foldl_cons, List.foldl_nil, Event.apply]
    refine ⟨frees, ?_, hG.remove_big hbig⟩
    intro j hj
    have := hP j hj
    simp only [liveOf_append, liveOf_cons, get_memory_pool_none_of_big hbig] at this ⊢
    exact this
  · have hg := get_memory_pool_some h0 (Nat.not_lt.mp hbig)
    generalize (size + SLOT_BASE_SIZE - 1) / SLOT_BASE_SIZE - 1 = i at hg
    have hi := (get_memory_pool_lt hg).1
    have hne : ∀ j, j ≠ i → ¬ (some i = some j) := fun j hj e => hj (Option.some.inj e).symm
    rw [pool_free_small st hg hp]
    have hsep := hI0.live_sep hi (mem_liveOf.mpr ⟨size, hmem, hg⟩) (Nat.le_refl p)
      (Nat.lt_add_of_pos_right ((hP i hi).slot_pos hi).1)
    have hPi := hP i hi
    simp only [liveOf_append, liveOf_cons, hg, if_true] at hPi
    have hPi' := hPi.free hp (hsep i hi).1
    simp only [insert_into_free_list, State.setPool, State.store, List.foldl_nil]
    refine ⟨Function.update frees i (p :: frees i), ?_, hG.remove_small (Nat.not_lt.mp hbig)⟩
    intro j hj
    by_cases hji : j = i
    · subst hji
      simp only [Function.update_same, liveOf_append]
      exact hPi'
    · have := (hP j hj).update_heap p (st.memory_pools i).free_list (hsep j hj).1 (hsep j hj).2
      simp only [liveOf_append, liveOf_cons, hg, hne j hji, if_false,
        Function.update_noteq hji] at this ⊢
      exact this

/-- The world after `pool_free` of a live pointer with its size. -/
theorem Inv_free {st : State} {l1 l2 regions owned : List (Nat × Nat)} {frees : Nat → List Nat}
    {p size : Nat} (hI : Inv ⟨st, l1 ++ (p, size) :: l2, regions⟩ owned frees) :
    ∃ owned' frees', Inv ⟨(pool_free st p size).1, l1 ++ l2,
        (pool_free st p size).2.foldl Event.apply regions⟩ owned' frees' :=
  ⟨_, Inv_free_owned hI⟩

/-- The world after a store into a live allocation. -/
theorem Inv_store {w : World} {owned : List (Nat × Nat)} {frees : Nat → List Nat}
    (hI : Inv w owned frees) (a v : Nat)
    (hw : ∃ e ∈ w.live, WordIn w.state e a) :
    Inv ⟨w.state.store a v, w.live, w.regions⟩ owned frees := by
  obtain ⟨e, he, h1, h2⟩ := hw
  obtain ⟨-, h0⟩ := hI.globals.live_ok e he
  have hsep : ∀ j, j < MEMORY_POOL_NUM → a ∉ blocksOf owned j ∧ a ∉ frees j := by
    by_cases hbig : e.2 > MAX_SLOT_SIZE
    · apply hI.big_sep he hbig h1
      simp only [slotExtent, get_memory_pool_none_of_big hbig, SIZEOF_SLOT_PTR] at h2
      omega
    · have hg := get_memory_pool_some h0 (Nat.not_lt.mp hbig)
      generalize (e.2 + SLOT_BASE_SIZE - 1) / SLOT_BASE_SIZE - 1 = i at hg
      have hi := (get_memory_pool_lt hg).1
      apply hI.live_sep hi (mem_liveOf.mpr ⟨e.2, he, hg⟩) h1
      simp only [slotExtent, hg, SIZEOF_SLOT_PTR] at h2
      omega
  refine ⟨?_, hI.globals⟩
  intro j hj
  exact (hI.pools j hj).update_heap a v (hsep j hj).1 (hsep j hj).2

/-- Every world reached by contract-obeying use satisfies the invariant. -/
theorem Reachable.inv {w : World} (hr : Reachable w) : ∃ owned frees, Inv w owned frees := by
  induction hr with
  | init s0 => exact ⟨[], fun _ => [], Inv_init s0⟩
  | alloc w size sys _ hfresh ih =>
    obtain ⟨owned, frees, hI⟩ := ih
    exact Inv_alloc hI size sys hfresh
  | free w p size _ hl ih =>
    obtain ⟨owned, frees, hI⟩ := ih
    obtain ⟨st, live, regions⟩ := w
    simp only at hl
    obtain ⟨l1, l2, -, hsplit, herase⟩ := List.exists_erase_eq hl
    subst hsplit
    simp only [World.free, herase]
    exact Inv_free hI
  | store w a v _ hw ih =>
    obtain ⟨owned, frees, hI⟩ := ih
    exact ⟨owned, frees, Inv_store hI a v hw⟩

/-! ## No aliasing, alignment, slots inside their block -/

theorem PoolInv.cursor_bounds {h : Nat → Nat} {bl lv fr : List Nat} {i : Nat}
    {pool : MemoryPool} (hI : PoolInv h bl lv fr i pool) (hi : i < MEMORY_POOL_NUM)
    (hc : pool.cur_slot < pool.last_slot) :
    pool.first_block ≠ NULL ∧ pool.slot_size ∣ pool.cur_slot ∧
    pool.first_block + SIZEOF_SLOT_PTR ≤ pool.cur_slot ∧
    pool.cur_slot + pool.slot_size ≤ pool.first_block + BLOCK_SIZE := by
  obtain ⟨hpos, h512⟩ := hI.slot_pos hi
  rcases hI.cursor with ⟨-, h2, h3⟩ | ⟨hfb, hlo, hdv, hlast⟩
  · rw [h2, h3] at hc
    exact absurd hc (Nat.lt_irrefl _)
  refine ⟨hfb, hdv, hlo, ?_⟩
  simp only [SIZEOF_SLOT_PTR, BLOCK_SIZE, MAX_SLOT_SIZE] at *
  omega

/-- Slots of the caller are pairwise disjoint when, class by class, they are
distinct aligned slots inside blocks and blocks do not overlap. -/
theorem pairwise_disjoint_of_slots (st : State) (owned : List (Nat × Nat))
    (hsep : ∀ i j b b', b ∈ blocksOf owned i → b' ∈ blocksOf owned j →
      (i = j ∧ b = b') ∨ b + BLOCK_SIZE ≤ b' ∨ b' + BLOCK_SIZE ≤ b)
    (hpos : ∀ i, i < MEMORY_POOL_NUM → 0 < (st.memory_pools i).slot_size) :
    ∀ live : List (Nat × Nat),
      (∀ i, i < MEMORY_POOL_NUM → (liveOf live i).Nodup) →
      (∀ i, i < MEMORY_POOL_NUM → ∀ q ∈ liveOf live i,
        (st.memory_pools i).slot_size ∣ q ∧
        ∃ b ∈ blocksOf owned i, b + SIZEOF_SLOT_PTR ≤ q ∧
          q + (st.memory_pools i).slot_size ≤ b + BLOCK_SIZE) →
      live.Pairwise (fun e e' =>
        1 ≤ e.2 → e.2 ≤ MAX_SLOT_SIZE → 1 ≤ e'.2 → e'.2 ≤ MAX_SLOT_SIZE →
          DisjointRanges e.1 (slotExtent st e.2) e'.1 (slotExtent st e'.2)) := by
  intro live
  induction live with
  | nil => intros; exact List.Pairwise.nil
  | cons e L ih =>
    intro hnd hsl
    obtain ⟨p, sz⟩ := e
    have hnd' : ∀ i, i < MEMORY_POOL_NUM → (liveOf L i).Nodup := by
      intro i hi
      have := hnd i hi
      rw [liveOf_cons] at this
      split_ifs at this
      · exact (List.nodup_cons.mp this).2
      · exact this
    have hsl' : ∀ i, i < MEMORY_POOL_NUM → ∀ q ∈ liveOf L i,
        (st.memory_pools i).slot_size ∣ q ∧
        ∃ b ∈ blocksOf owned i, b + SIZEOF_SLOT_PTR ≤ q ∧
          q + (st.memory_pools i).slot_size ≤ b + BLOCK_SIZE := by
      intro i hi q hq
      apply hsl i hi q
      rw [liveOf_cons]
      split_ifs
      · exact List.mem_cons_of_mem _ hq
      · exact hq
    refine List.pairwise_cons.mpr ⟨?_, ih hnd' hsl'⟩
    rintro ⟨p', sz'⟩ hmem h1 h2 h1' h2'
    simp only at h1 h2 h1' h2' ⊢
    have hg := get_memory_pool_some h1 h2
    have hg' := get_memory_pool_some h1' h2'
    generalize (sz + SLOT_BASE_SIZE - 1) / SLOT_BASE_SIZE - 1 = i at hg
    generalize (sz' + SLOT_BASE_SIZE - 1) / SLOT_BASE_SIZE - 1 = i' at hg'
    have hi := (get_memory_pool_lt hg).1
    have hi' := (get_memory_pool_lt hg').1
    have hp : p ∈ liveOf ((p, sz) :: L) i := by
      rw [liveOf_cons, if_pos hg]; exact List.mem_cons_self _ _
    have hp' : p' ∈ liveOf L i' := mem_liveOf.mpr ⟨sz', hmem, hg'⟩
    obtain ⟨hdv, b, hb, hb1, hb2⟩ := hsl i hi p hp
    obtain ⟨hdv', b', hb', hb1', hb2'⟩ := hsl' i' hi' p' hp'
    simp only [DisjointRanges, slotExtent, hg, hg']
    rcases hsep i i' b b' hb hb' with ⟨e1, e2⟩ | e | e
    · subst e1 e2
      have hne : p ≠ p' := by
        have := hnd i hi
        rw [liveOf_cons, if_pos hg] at this
        intro e
        exact (List.nodup_cons.mp this).1 (e ▸ hp')
      rcases Nat.lt_or_ge p' p with hlt | hge
      · right
        by_contra hcon
        exact hne (slot_eq_of_within hdv' hdv (Nat.le_of_lt hlt) (Nat.not_le.mp hcon)).symm
      · left
        by_contra hcon
        exact hne (slot_eq_of_within hdv hdv' hge (Nat.not_le.mp hcon))
    · have := hpos i hi
      have := hpos i' hi'
      simp only [SIZEOF_SLOT_PTR, BLOCK_SIZE] at *
      omega
    · have := hpos i hi
      have := hpos i' hi'
      simp only [SIZEOF_SLOT_PTR, BLOCK_SIZE] at *
      omega

/-- C1: in every world reached from `init_memory_pools` by contract-obeying
`pool_alloc` / `pool_free` calls (and stores into live allocations), with a
system allocator that answers with regions disjoint from those in use, any two
distinct live allocations of sizes in `[1, 512]` occupy disjoint byte ranges
`[p, p + slot_size)`, so a word stored inside one leaves every word inside
the other unchanged. -/
theorem C1_no_aliasing (w : World) (hr : Reachable w) :
    w.live.Pairwise (fun e e' =>
      1 ≤ e.2 → e.2 ≤ MAX_SLOT_SIZE → 1 ≤ e'.2 → e'.2 ≤ MAX_SLOT_SIZE →
        DisjointRanges e.1 (slotExtent w.state e.2) e'.1 (slotExtent w.state e'.2) ∧
        ∀ a a' v, WordIn w.state e a → WordIn w.state e' a' →
          (w.state.store a v).heap a' = w.state.heap a' ∧
          (w.state.store a' v).heap a = w.state.heap a) := by
  obtain ⟨owned, frees, hI⟩ := hr.inv
  have key := pairwise_disjoint_of_slots w.state owned
    (fun i j b b' hb hb' => hI.block_sep hb hb')
    (fun i hi => ((hI.pools i hi).slot_pos hi).1) w.live
    (fun i hi => ((List.nodup_append.mp (hI.pools i hi).nodup)).1)
    (fun i hi q hq => by
      obtain ⟨h1, b, hb, h2, h3, -⟩ := (hI.pools i hi).slots q (List.mem_append_left _ hq)
      exact ⟨h1, b, hb, h2, h3⟩)
  refine key.imp ?_
  intro e e' hd h1 h2 h1' h2'
  have hdis := hd h1 h2 h1' h2'
  refine ⟨hdis, ?_⟩
  intro a a' v ha ha'
  have hne : a ≠ a' := by
    unfold DisjointRanges at hdis
    obtain ⟨x1, x2⟩ := ha
    obtain ⟨y1, y2⟩ := ha'
    simp only [SIZEOF_SLOT_PTR] at *
    omega
  simp only [State.store]
  exact ⟨Function.update_noteq (Ne.symm hne) _ _, Function.update_noteq hne _ _⟩

/-- Witness for C1: two allocations of size 8 out of a block at 4096. -/
theorem C1_no_aliasing_witness :
    (((World.init zeroState).alloc 8 4096).alloc 8 0).live = [(4112, 8), (4104, 8)] ∧
    (((World.init zeroState).alloc 8 4096).alloc 8 0).live.Pairwise (fun e e' =>
      1 ≤ e.2 → e.2 ≤ MAX_SLOT_SIZE → 1 ≤ e'.2 → e'.2 ≤ MAX_SLOT_SIZE →
        DisjointRanges e.1
          (slotExtent (((World.init zeroState).alloc 8 4096).alloc 8 0).state e.2) e'.1
          (slotExtent (((World.init zeroState).alloc 8 4096).alloc 8 0).state e'.2) ∧
        ∀ a a' v, WordIn (((World.init zeroState).alloc 8 4096).alloc 8 0).state e a →
          WordIn (((World.init zeroState).alloc 8 4096).alloc 8 0).state e' a' →
          ((((World.init zeroState).alloc 8 4096).alloc 8 0).state.store a v).heap a' =
            (((World.init zeroState).alloc 8 4096).alloc 8 0).state.heap a' ∧
          ((((World.init zeroState).alloc 8 4096).alloc 8 0).state.store a' v).heap a =
            (((World.init zeroState).alloc 8 4096).alloc 8 0).state.heap a) :=
  ⟨by decide,
    C1_no_aliasing _
      (Reachable.alloc _ 8 0
        (Reachable.alloc _ 8 4096 (Reachable.init zeroState)
          (fun _ _ _ r hr => absurd hr (List.not_mem_nil r)))
        (fun h => absurd rfl h))⟩

/-- C2: in every world reached by contract-obeying use, for every size in
`[1, MAX_SLOT_SIZE]` and whatever block address the system allocator answers,
a non-null result of `pool_alloc` is a multiple of the slot size of the pool
`get_memory_pool` resolves (the slot size is the same before and after the
call), be the slot popped from the free list or taken at the bump cursor. -/
theorem C2_alignment (w : World) (hr : Reachable w) (size sys : Nat)
    (h1 : 1 ≤ size) (h2 : size ≤ MAX_SLOT_SIZE)
    (hret : (pool_alloc w.state size sys).val ≠ NULL) :
    ∃ i, get_memory_pool size = some i ∧
      ((pool_alloc w.state size sys).state.memory_pools i).slot_size =
        (w.state.memory_pools i).slot_size ∧
      (w.state.memory_pools i).slot_size ∣ (pool_alloc w.state size sys).val := by
  obtain ⟨owned, frees, hI⟩ := hr.inv
  have hg := get_memory_pool_some h1 h2
  refine ⟨_, hg, ?_⟩
  generalize (size + SLOT_BASE_SIZE - 1) / SLOT_BASE_SIZE - 1 = i at hg
  have hi := (get_memory_pool_lt hg).1
  have hP := hI.pools i hi
  by_cases hf : (w.state.memory_pools i).free_list = NULL
  · by_cases hcl : (w.state.memory_pools i).last_slot ≤ (w.state.memory_pools i).cur_slot
    · by_cases hsys : sys = NULL
      · subst hsys
        rw [pool_alloc_fail w.state hg hf hcl] at hret
        exact absurd rfl hret
      · rw [pool_alloc_grow w.state hg hf hcl hsys]
        simp only [take_cur_slot, allocate_new_block_state w.state i hsys, State.setPool,
          State.store, Function.update_same, true_and]
        exact pad_pointer_dvd _ (hP.slot_pos hi).1
    · have hcl1 : (w.state.memory_pools i).cur_slot < (w.state.memory_pools i).last_slot := by
        omega
      rw [pool_alloc_bump w.state sys hg hf hcl1]
      simp only [take_cur_slot, State.setPool, Function.update_same, true_and]
      exact (hP.cursor_bounds hi hcl1).2.1
  · rw [pool_alloc_pop w.state sys hg hf]
    simp only [State.setPool, Function.update_same, true_and]
    obtain ⟨rest, hrest, -⟩ := ChainList_head hP.free_chain hf
    exact (hP.slots _ (List.mem_append_right _ (hrest ▸ List.mem_cons_self _ _))).1

/-- Witness for C2: size 13 once a slot of that class has been released, so
that the result comes from the free list. -/
theorem C2_alignment_witness :
    (pool_alloc (((World.init zeroState).alloc 13 4096).free 4112 13).state 16 0).val = 4112 ∧
    ∃ i, get_memory_pool 16 = some i ∧
      ((pool_alloc (((World.init zeroState).alloc 13 4096).free 4112 13).state 16 0).state.memory_pools
          i).slot_size =
        ((((World.init zeroState).alloc 13 4096).free 4112 13).state.memory_pools i).slot_size ∧
      ((((World.init zeroState).alloc 13 4096).free 4112 13).state.memory_pools i).slot_size ∣
        (pool_alloc (((World.init zeroState).alloc 13 4096).free 4112 13).state 16 0).val :=
  ⟨by decide,
    C2_alignment _
      (Reachable.free _ 4112 13
        (Reachable.alloc _ 13 4096 (Reachable.init zeroState)
          (fun _ _ _ r hr => absurd hr (List.not_mem_nil r)))
        (by decide))
      16 0 (by decide) (by decide) (by decide)⟩

/-- C3: a successful growth of an initialised pool of slot size
`8, 16, ..., 512` with a block at any address `sys` leaves
`cur_slot < last_slot`, and in every reachable world a slot handed out at the
bump cursor (with or without growth) lies in the current block `b` of the
pool with `b + 8 <= p` and `p + slot_size <= b + block_size`, so it does not
touch the link header `[b, b + 8)`. -/
theorem C3_slots_inside_block :
    (∀ (s : State) (i sys : Nat), i < MEMORY_POOL_NUM → Initialised s i → sys ≠ NULL →
      (allocate_new_block s i sys).val = 1 ∧
      ((allocate_new_block s i sys).state.memory_pools i).first_block = sys ∧
      ((allocate_new_block s i sys).state.memory_pools i).cur_slot <
        ((allocate_new_block s i sys).state.memory_pools i).last_slot ∧
      sys + SIZEOF_SLOT_PTR ≤ ((allocate_new_block s i sys).state.memory_pools i).cur_slot ∧
      ((allocate_new_block s i sys).state.memory_pools i).cur_slot +
          ((allocate_new_block s i sys).state.memory_pools i).slot_size ≤
        sys + ((allocate_new_block s i sys).state.memory_pools i).block_size) ∧
    (∀ (w : World), Reachable w → ∀ (size sys i : Nat), get_memory_pool size = some i →
      (w.state.memory_pools i).free_list = NULL →
      (pool_alloc w.state size sys).val ≠ NULL →
      ((pool_alloc w.state size sys).state.memory_pools i).first_block ≠ NULL ∧
      ((pool_alloc w.state size sys).state.memory_pools i).first_block + SIZEOF_SLOT_PTR ≤
        (pool_alloc w.state size sys).val ∧
      (pool_alloc w.state size sys).val +
          ((pool_alloc w.state size sys).state.memory_pools i).slot_size ≤
        ((pool_alloc w.state size sys).state.memory_pools i).first_block +
          ((pool_alloc w.state size sys).state.memory_pools i).block_size) := by
  constructor
  · intro s i sys hi hinit hsys
    have hpos : 0 < (s.memory_pools i).slot_size := by
      rw [hinit.1]; simp [SLOT_BASE_SIZE]
    have h512 : (s.memory_pools i).slot_size ≤ MAX_SLOT_SIZE := by
      rw [hinit.1]; simp only [SLOT_BASE_SIZE, MAX_SLOT_SIZE, MEMORY_POOL_NUM] at *; omega
    obtain ⟨-, g2, g3, g4⟩ := grown_slot_valid sys hpos h512
    rw [allocate_new_block_state s i hsys]
    simp only [State.setPool, State.store, Function.update_same, hinit.2]
    refine ⟨?_, trivial, g4, g2, g3⟩
    simp [allocate_new_block, hsys]
  · intro w hr size sys i hg hf hret
    obtain ⟨owned, frees, hI⟩ := hr.inv
    have hi := (get_memory_pool_lt hg).1
    have hP := hI.pools i hi
    obtain ⟨hpos, h512⟩ := hP.slot_pos hi
    by_cases hcl : (w.state.memory_pools i).last_slot ≤ (w.state.memory_pools i).cur_slot
    · by_cases hsys : sys = NULL
      · subst hsys
        rw [pool_alloc_fail w.state hg hf hcl] at hret
        exact absurd rfl hret
      · obtain ⟨-, g2, g3, -⟩ := grown_slot_valid sys hpos h512
        rw [pool_alloc_grow w.state hg hf hcl hsys]
        simp only [take_cur_slot, allocate_new_block_state w.state i hsys, State.setPool,
          State.store, Function.update_same, hP.block_size_eq]
        exact ⟨hsys, g2, g3⟩
    · have hcl1 : (w.state.memory_pools i).cur_slot < (w.state.memory_pools i).last_slot := by
        omega
      obtain ⟨c1, -, c3, c4⟩ := hP.cursor_bounds hi hcl1
      rw [pool_alloc_bump w.state sys hg hf hcl1]
      simp only [take_cur_slot, State.setPool, Function.update_same, hP.block_size_eq]
      exact ⟨c1, c3, c4⟩

/-- Witness for C3: the second slot of size 512 out of a block at 4096. -/
theorem C3_slots_inside_block_witness :
    (pool_alloc ((World.init zeroState).alloc 512 4096).state 512 0).val = 5120 ∧
    ((pool_alloc ((World.init zeroState).alloc 512 4096).state 512 0).state.memory_pools
        63).first_block ≠ NULL ∧
    ((pool_alloc ((World.init zeroState).alloc 512 4096).state 512 0).state.memory_pools
        63).first_block + SIZEOF_SLOT_PTR ≤
      (pool_alloc ((World.init zeroState).alloc 512 4096).state 512 0).val ∧
    (pool_alloc ((World.init zeroState).alloc 512 4096).state 512 0).val +
        ((pool_alloc ((World.init zeroState).alloc 512 4096).state 512 0).state.memory_pools
          63).slot_size ≤
      ((pool_alloc ((World.init zeroState).alloc 512 4096).state 512 0).state.memory_pools
          63).first_block +
        ((pool_alloc ((World.init zeroState).alloc 512 4096).state 512 0).state.memory_pools
          63).block_size :=
  ⟨by decide,
    C3_slots_inside_block.2 _
      (Reachable.alloc _ 512 4096 (Reachable.init zeroState)
        (fun _ _ _ r hr => absurd hr (List.not_mem_nil r)))
      512 0 63 (by decide) (by decide) (by decide)⟩

/-! ## Teardown cleanliness -/

/-- `destroy_memory_pools` returns as soon as the fuel covers the block chain
of every pool: destroying pools `0 .. n-1` leaves the heap and the chain head of
pool `n` as they were, so the walk of pool `n` ends as it does in the starting
state. -/
theorem destroy_loop_returns {fuel : Nat} :
    ∀ (n : Nat) (s : State),
      (∀ j, j < n → ∃ bs, ChainList s.heap (s.memory_pools j).first_block bs ∧
        bs.length ≤ fuel) →
      ∃ s' evs, destroy_loop fuel n s = some (s', evs) := by
  intro n
  induction n with
  | zero => intro s _; exact ⟨s, [], rfl⟩
  | succ n ih =>
    intro s h
    obtain ⟨s1, evs1, h1⟩ := ih s (fun j hj => h j (Nat.lt_succ_of_lt hj))
    obtain ⟨hh, hp⟩ := destroy_loop_state n h1
    have hpn : s1.memory_pools n = s.memory_pools n := by
      rw [hp n, if_neg (Nat.lt_irrefl n)]
    obtain ⟨bs, hbs, hlen⟩ := h n (Nat.lt_succ_self n)
    have hfb : free_block_chain fuel s1.heap (s1.memory_pools n).first_block = some bs := by
      rw [hh, hpn]
      exact free_block_chain_of_chain bs _ fuel hbs hlen
    simp [destroy_loop, h1, memory_pool_destroy, hfb]

/-- After `destroy_memory_pools` on an initialised registry no sequence of
calls tells the state from a freshly initialised one. -/
theorem destroy_memory_pools_sim {fuel : Nat} {s s' : State} {evs : List Event}
    (hd : destroy_memory_pools fuel s = some (s', evs))
    (hinit : ∀ j, j < MEMORY_POOL_NUM → Initialised s j) (s0 : State) :
    Sim (fun j => j < MEMORY_POOL_NUM) s' (init_memory_pools s0) := by
  intro j hj
  obtain ⟨-, hp⟩ := destroy_loop_state MEMORY_POOL_NUM hd
  rw [hp j, if_pos hj, init_memory_pools_pool s0 j hj]
  refine ⟨?_, Good_null _ _, Good_null _ _⟩
  simp [memory_pool_init, (hinit j hj).1, (hinit j hj).2]

/-- What holds whenever `memory_pool_destroy` returns. -/
theorem memory_pool_destroy_post {fuel : Nat} {s s' : State} {i : Nat} {evs : List Event}
    (hd : memory_pool_destroy fuel s i = some (s', evs)) :
    (s'.memory_pools i).first_block = NULL ∧
    (s'.memory_pools i).cur_slot = NULL ∧
    (s'.memory_pools i).last_slot = NULL ∧
    (s'.memory_pools i).free_list = NULL ∧
    (s'.memory_pools i).slot_size = (s.memory_pools i).slot_size ∧
    (s'.memory_pools i).block_size = (s.memory_pools i).block_size ∧
    ((s.memory_pools i).block_size = BLOCK_SIZE →
      s'.memory_pools i =
        memory_pool_init (s.memory_pools i) (s.memory_pools i).slot_size) ∧
    (i < MEMORY_POOL_NUM → Initialised s i →
      ∀ s0 calls, (∀ c ∈ calls, c.within (fun j => j = i)) →
        run s' calls = run (init_memory_pools s0) calls) ∧
    (∀ s0 calls, run (init_memory_pools s') calls = run (init_memory_pools s0) calls) := by
  have he := memory_pool_destroy_eq hd
  subst he
  simp only [State.setPool, Function.update_same, true_and]
  refine ⟨?_, ?_, ?_⟩
  · intro hb
    simp [memory_pool_init, ← hb]
  · intro hi hinit s0 calls hc
    apply Sim_run calls _ hc
    intro j hj
    subst hj
    rw [init_memory_pools_pool s0 j hi]
    simp only [Function.update_same]
    refine ⟨?_, Good_null _ _, Good_null _ _⟩
    simp [memory_pool_init, hinit.1, hinit.2]
  · intro s0 calls
    exact Sim_run calls (Sim_init_init _ _) (fun c _ => get_memory_pool_within_all c)

theorem blocksOf_length_le (owned : List (Nat × Nat)) (i : Nat) :
    (blocksOf owned i).length ≤ owned.length := by
  unfold blocksOf
  rw [List.length_map]
  exact List.length_filter_le _ _

/-- C10: `memory_pool_destroy` returns on every pool whose block chain ends,
for any fuel that covers the chain, and `destroy_memory_pools` returns on every
registry whose block chains end, for any fuel that covers them all; both do so
on every world reached by contract-obeying use.  Whenever
`memory_pool_destroy` returns, block chain head, bump cursor, bump limit and
free list of the pool are null and `slot_size`, `block_size` are as before, so
an initialised pool is back in the state `memory_pool_init` gives for its slot
size; calls served by that pool then return the same values and make the same
system calls as after a first-time `init_memory_pools`, and so does every
sequence of calls after a following `init_memory_pools` or after
`destroy_memory_pools` on an initialised registry. -/
theorem C10_teardown (s : State) (i : Nat) :
    (∀ bs, ChainList s.heap (s.memory_pools i).first_block bs →
      ∀ fuel, bs.length ≤ fuel →
      ∃ s' evs, memory_pool_destroy fuel s i = some (s', evs) ∧
        (s'.memory_pools i).first_block = NULL ∧
        (s'.memory_pools i).cur_slot = NULL ∧
        (s'.memory_pools i).last_slot = NULL ∧
        (s'.memory_pools i).free_list = NULL ∧
        (s'.memory_pools i).slot_size = (s.memory_pools i).slot_size ∧
        (s'.memory_pools i).block_size = (s.memory_pools i).block_size ∧
        ((s.memory_pools i).block_size = BLOCK_SIZE →
          s'.memory_pools i =
            memory_pool_init (s.memory_pools i) (s.memory_pools i).slot_size) ∧
        (i < MEMORY_POOL_NUM → Initialised s i →
          ∀ s0 calls, (∀ c ∈ calls, c.within (fun j => j = i)) →
            run s' calls = run (init_memory_pools s0) calls) ∧
        (∀ s0 calls, run (init_memory_pools s') calls = run (init_memory_pools s0) calls)) ∧
    (∀ fuel s' evs, memory_pool_destroy fuel s i = some (s', evs) →
      (s'.memory_pools i).first_block = NULL ∧
      (s'.memory_pools i).cur_slot = NULL ∧
      (s'.memory_pools i).last_slot = NULL ∧
      (s'.memory_pools i).free_list = NULL ∧
      (s'.memory_pools i).slot_size = (s.memory_pools i).slot_size ∧
      (s'.memory_pools i).block_size = (s.memory_pools i).block_size ∧
      ((s.memory_pools i).block_size = BLOCK_SIZE →
        s'.memory_pools i =
          memory_pool_init (s.memory_pools i) (s.memory_pools i).slot_size) ∧
      (i < MEMORY_POOL_NUM → Initialised s i →
        ∀ s0 calls, (∀ c ∈ calls, c.within (fun j => j = i)) →
          run s' calls = run (init_memory_pools s0) calls) ∧
      (∀ s0 calls, run (init_memory_pools s') calls = run (init_memory_pools s0) calls)) ∧
    (∀ fuel,
      (∀ j, j < MEMORY_POOL_NUM →
        ∃ bs, ChainList s.heap (s.memory_pools j).first_block bs ∧ bs.length ≤ fuel) →
      ∃ s' evs, destroy_memory_pools fuel s = some (s', evs) ∧
        s'.heap = s.heap ∧
        (∀ j, j < MEMORY_POOL_NUM →
          (s'.memory_pools j).first_block = NULL ∧
          (s'.memory_pools j).cur_slot = NULL ∧
          (s'.memory_pools j).last_slot = NULL ∧
          (s'.memory_pools j).free_list = NULL ∧
          (s'.memory_pools j).slot_size = (s.memory_pools j).slot_size ∧
          (s'.memory_pools j).block_size = (s.memory_pools j).block_size) ∧
        ((∀ j, j < MEMORY_POOL_NUM → Initialised s j) →
          ∀ s0 calls, run s' calls = run (init_memory_pools s0) calls)) ∧
    (∀ fuel s' evs, destroy_memory_pools fuel s = some (s', evs) →
      (∀ j, j < MEMORY_POOL_NUM → Initialised s j) →
      ∀ s0 calls, run s' calls = run (init_memory_pools s0) calls) ∧
    (∀ w, Reachable w →
      (i < MEMORY_POOL_NUM →
        Initialised w.state i ∧
        ∃ bs, ChainList w.state.heap (w.state.memory_pools i).first_block bs) ∧
      ∃ fuel0, ∀ fuel, fuel0 ≤ fuel →
        ∃ s' evs, destroy_memory_pools fuel w.state = some (s', evs) ∧
          ∀ s0 calls, run s' calls = run (init_memory_pools s0) calls) := by
  have total : ∀ (t : State) (fuel : Nat),
      (∀ j, j < MEMORY_POOL_NUM →
        ∃ bs, ChainList t.heap (t.memory_pools j).first_block bs ∧ bs.length ≤ fuel) →
      ∃ s' evs, destroy_memory_pools fuel t = some (s', evs) ∧
        s'.heap = t.heap ∧
        (∀ j, j < MEMORY_POOL_NUM →
          (s'.memory_pools j).first_block = NULL ∧
          (s'.memory_pools j).cur_slot = NULL ∧
          (s'.memory_pools j).last_slot = NULL ∧
          (s'.memory_pools j).free_list = NULL ∧
          (s'.memory_pools j).slot_size = (t.memory_pools j).slot_size ∧
          (s'.memory_pools j).block_size = (t.memory_pools j).block_size) ∧
        ((∀ j, j < MEMORY_POOL_NUM → Initialised t j) →
          ∀ s0 calls, run s' calls = run (init_memory_pools s0) calls) := by
    intro t fuel hch
    obtain ⟨s', evs, hd⟩ := destroy_loop_returns MEMORY_POOL_NUM t hch
    have hd' : destroy_memory_pools fuel t = some (s', evs) := hd
    obtain ⟨hh, hp⟩ := destroy_loop_state MEMORY_POOL_NUM hd
    refine ⟨s', evs, hd', hh, ?_, ?_⟩
    · intro j hj
      rw [hp j, if_pos hj]
      exact ⟨rfl, rfl, rfl, rfl, rfl, rfl⟩
    · intro hinit s0 calls
      exact Sim_run calls (destroy_memory_pools_sim hd' hinit s0)
        (fun c _ => get_memory_pool_within_all c)
  refine ⟨?_, ?_, total s, ?_, ?_⟩
  · intro bs hbs fuel hfuel
    have hfb := free_block_chain_of_chain bs _ fuel hbs hfuel
    have hd : memory_pool_destroy fuel s i =
        some (s.setPool i { s.memory_pools i with
            first_block := NULL, cur_slot := NULL, last_slot := NULL, free_list := NULL },
          Event.lock i :: bs.map Event.free ++ [Event.unlock i]) := by
      simp [memory_pool_destroy, hfb]
    exact ⟨_, _, hd, memory_pool_destroy_post hd⟩
  · intro fuel s' evs hd
    exact memory_pool_destroy_post hd
  · intro fuel s' evs hd hinit s0 calls
    exact Sim_run calls (destroy_memory_pools_sim hd hinit s0)
      (fun c _ => get_memory_pool_within_all c)
  · intro w hr
    obtain ⟨owned, frees, hI⟩ := hr.inv
    constructor
    · intro hi
      have hP := hI.pools i hi
      exact ⟨⟨hP.slot_size_eq, hP.block_size_eq⟩, _, hP.chain⟩
    · refine ⟨owned.length, ?_⟩
      intro fuel hfuel
      obtain ⟨s', evs, hd, -, -, hrun⟩ := total w.state fuel (fun j hj =>
        ⟨blocksOf owned j, (hI.pools j hj).chain,
          Nat.le_trans (blocksOf_length_le owned j) hfuel⟩)
      exact ⟨s', evs, hd, hrun (fun j hj =>
        ⟨(hI.pools j hj).slot_size_eq, (hI.pools j hj).block_size_eq⟩)⟩

/-- Witness for C10: the registry after one allocation of size 8 served from
a block at address 4096; `memory_pool_destroy` of pool 0 returns with a fuel
of 1, and `destroy_memory_pools` returns and leaves a state that behaves as
after a first-time initialisation. -/
theorem C10_teardown_witness :
    (∃ s' evs, memory_pool_destroy 1 ((World.init zeroState).alloc 8 4096).state 0 =
        some (s', evs) ∧
      (s'.memory_pools 0).first_block = NULL ∧
      (s'.memory_pools 0).cur_slot = NULL ∧
      (s'.memory_pools 0).last_slot = NULL ∧
      (s'.memory_pools 0).free_list = NULL) ∧
    (∃ fuel0, ∀ fuel, fuel0 ≤ fuel →
      ∃ s' evs, destroy_memory_pools fuel ((World.init zeroState).alloc 8 4096).state =
          some (s', evs) ∧
        ∀ s0 calls, run s' calls = run (init_memory_pools s0) calls) :=
  ⟨(fun ⟨s', evs, hd, h1, h2, h3, h4, _⟩ => ⟨s', evs, hd, h1, h2, h3, h4⟩)
      ((C10_teardown ((World.init zeroState).alloc 8 4096).state 0).1 [4096]
        ⟨by decide, by decide,
          (by decide : ((World.init zeroState).alloc 8 4096).state.heap 4096 = NULL)⟩
        1 (by decide)),
    ((C10_teardown ((World.init zeroState).alloc 8 4096).state 0).2.2.2.2
      ((World.init zeroState).alloc 8 4096)
      (Reachable.alloc _ 8 4096 (Reachable.init zeroState)
        (fun _ _ _ r hr => absurd hr (List.not_mem_nil r)))).2⟩

/-! ## Initialisation and padding -/

/-- C11: after `init_memory_pools`, pool `i` for `i` in `[0, 63]` has slot size
`(i + 1) * 8`, block size 4096, null chain head, null cursor, null limit and
an empty free list; the slot sizes are exactly the multiples of 8 from 8 to
512. -/
theorem C11_initialization (s : State) :
    (∀ i, i ≤ 63 →
      ((init_memory_pools s).memory_pools i).slot_size = (i + 1) * 8 ∧
      ((init_memory_pools s).memory_pools i).block_size = 4096 ∧
      ((init_memory_pools s).memory_pools i).first_block = NULL ∧
      ((init_memory_pools s).memory_pools i).cur_slot = NULL ∧
      ((init_memory_pools s).memory_pools i).last_slot = NULL ∧
      ((init_memory_pools s).memory_pools i).free_list = NULL) ∧
    (∀ m, (∃ i, i ≤ 63 ∧ ((init_memory_pools s).memory_pools i).slot_size = m) ↔
      (8 ∣ m ∧ 8 ≤ m ∧ m ≤ 512)) ∧
    (∀ i j, i ≤ 63 → j ≤ 63 →
      ((init_memory_pools s).memory_pools i).slot_size =
        ((init_memory_pools s).memory_pools j).slot_size → i = j) := by
  have hp : ∀ i, i ≤ 63 → (init_memory_pools s).memory_pools i =
      memory_pool_init (s.memory_pools i) ((i + 1) * SLOT_BASE_SIZE) := by
    intro i hi
    exact init_memory_pools_pool s i (by simp only [MEMORY_POOL_NUM]; omega)
  refine ⟨?_, ?_, ?_⟩
  · intro i hi
    rw [hp i hi]
    exact ⟨rfl, rfl, rfl, rfl, rfl, rfl⟩
  · intro m
    constructor
    · rintro ⟨i, hi, rfl⟩
      rw [hp i hi]
      simp only [memory_pool_init, SLOT_BASE_SIZE]
      exact ⟨⟨i + 1, by ring⟩, by omega, by omega⟩
    · rintro ⟨⟨c, rfl⟩, h8, h512⟩
      refine ⟨c - 1, by omega, ?_⟩
      rw [hp (c - 1) (by omega)]
      simp only [memory_pool_init, SLOT_BASE_SIZE]
      omega
  · intro i j hi hj h
    rw [hp i hi, hp j hj] at h
    simp only [memory_pool_init, SLOT_BASE_SIZE] at h
    omega

/-- Witness for C11: pool 5 of the registry initialised from zeroed storage. -/
theorem C11_initialization_witness :
    ((init_memory_pools zeroState).memory_pools 5).slot_size = (5 + 1) * 8 ∧
    ((init_memory_pools zeroState).memory_pools 5).block_size = 4096 ∧
    ((init_memory_pools zeroState).memory_pools 5).first_block = NULL ∧
    ((init_memory_pools zeroState).memory_pools 5).cur_slot = NULL ∧
    ((init_memory_pools zeroState).memory_pools 5).last_slot = NULL ∧
    ((init_memory_pools zeroState).memory_pools 5).free_list = NULL :=
  (C11_initialization zeroState).1 5 (by decide)

theorem pad_pointer_least (a : Nat) {n : Nat} (hn : 0 < n) :
    ∀ m, n ∣ m → a ≤ m → a + pad_pointer a n ≤ m := by
  rintro m ⟨c, rfl⟩ hle
  unfold pad_pointer
  have hr := Nat.mod_lt a hn
  have hd := Nat.div_add_mod a n
  simp only
  split_ifs with h
  · simpa using hle
  · have hlt : n * (a / n) < n * c := by omega
    have hc : a / n + 1 ≤ c := Nat.lt_of_mul_lt_mul_left hlt
    have := Nat.mul_le_mul_left n hc
    rw [Nat.mul_add, Nat.mul_one] at this
    omega

/-- C12: for every address `a` and alignment `n > 0`, `pad_pointer(a, n)` is
`(n - a mod n) mod n`; it is below `n`, zero exactly when `n` divides `a`, and
`a + pad_pointer(a, n)` is the least multiple of `n` that is at least `a`. -/
theorem C12_padding (a n : Nat) (hn : 0 < n) :
    pad_pointer a n = (n - a % n) % n ∧
    pad_pointer a n < n ∧
    (pad_pointer a n = 0 ↔ n ∣ a) ∧
    n ∣ a + pad_pointer a n ∧
    (∀ m, n ∣ m → a ≤ m → a + pad_pointer a n ≤ m) := by
  refine ⟨?_, pad_pointer_lt a hn, ?_, pad_pointer_dvd a hn, pad_pointer_least a hn⟩
  · unfold pad_pointer
    have hr := Nat.mod_lt a hn
    simp only
    split_ifs with h
    · rw [h, Nat.mod_self]
    · rw [Nat.mod_eq_of_lt (show n - a % n < n by omega)]
  · unfold pad_pointer
    have hr := Nat.mod_lt a hn
    simp only
    rw [Nat.dvd_iff_mod_eq_zero]
    split_ifs with h
    · constructor
      · intro _; omega
      · intro _; rfl
    · constructor
      · intro h0; omega
      · intro h0; omega

/-- Witness for C12: address 4104 padded to a multiple of 16. -/
theorem C12_padding_witness :
    pad_pointer 4104 16 = (16 - 4104 % 16) % 16 ∧
    pad_pointer 4104 16 < 16 ∧
    (pad_pointer 4104 16 = 0 ↔ 16 ∣ 4104) ∧
    16 ∣ 4104 + pad_pointer 4104 16 ∧
    (∀ m, 16 ∣ m → 4104 ≤ m → 4104 + pad_pointer 4104 16 ≤ m) :=
  C12_padding 4104 16 (by decide)

/-! ## Growth -/

/-- C13 (as stated, refuted): after growing pool 0 (slot size 8) of the freshly
initialised registry with a block at 4096, `last_slot` is 8185 and not
`4096 + 4096 - 8 = 8184`. -/
theorem C13_bump_limit_counterexample :
    (allocate_new_block bootState 0 4096).val = 1 ∧
    ((allocate_new_block bootState 0 4096).state.memory_pools 0).last_slot ≠
      4096 + (bootState.memory_pools 0).block_size - (bootState.memory_pools 0).slot_size := by
  decide

/-- C13 (amended): after a successful growth with a block at `sys`,
`last_slot` is `sys + block_size - slot_size + 1`, one past the address of the
last slot that still fits: a slot starting at `p` fits in the block exactly
when `p < last_slot`. -/
theorem C13_bump_limit (s : State) (i sys : Nat) (hsys : sys ≠ NULL) :
    (allocate_new_block s i sys).val = 1 ∧
    ((allocate_new_block s i sys).state.memory_pools i).last_slot =
      sys + (s.memory_pools i).block_size - (s.memory_pools i).slot_size + 1 ∧
    ((s.memory_pools i).slot_size ≤ sys + (s.memory_pools i).block_size →
      ∀ p, p + (s.memory_pools i).slot_size ≤ sys + (s.memory_pools i).block_size ↔
        p < ((allocate_new_block s i sys).state.memory_pools i).last_slot) := by
  rw [allocate_new_block_state s i hsys]
  simp only [State.setPool, State.store, Function.update_same, true_and]
  refine ⟨by simp [allocate_new_block, hsys], ?_⟩
  intro hle p
  omega

/-- Witness for C13 (amended): pool 0 of the fresh registry, block at 4096. -/
theorem C13_bump_limit_witness :
    (allocate_new_block bootState 0 4096).val = 1 ∧
    ((allocate_new_block bootState 0 4096).state.memory_pools 0).last_slot =
      4096 + (bootState.memory_pools 0).block_size - (bootState.memory_pools 0).slot_size + 1 ∧
    ((bootState.memory_pools 0).slot_size ≤ 4096 + (bootState.memory_pools 0).block_size →
      ∀ p, p + (bootState.memory_pools 0).slot_size ≤
          4096 + (bootState.memory_pools 0).block_size ↔
        p < ((allocate_new_block bootState 0 4096).state.memory_pools 0).last_slot) :=
  C13_bump_limit bootState 0 4096 (by decide)

/-- C16: when `allocate_new_block` succeeds with a block at `sys`, the link
word of the new block holds the previous chain head, the chain head becomes
`sys`, and `cur_slot` becomes the least multiple of `slot_size` that is at
least `sys + 8`. -/
theorem C16_growth_postcondition (s : State) (i sys : Nat) (hsys : sys ≠ NULL)
    (hss : 0 < (s.memory_pools i).slot_size) :
    (allocate_new_block s i sys).val = 1 ∧
    (allocate_new_block s i sys).state.heap sys = (s.memory_pools i).first_block ∧
    ((allocate_new_block s i sys).state.memory_pools i).first_block = sys ∧
    (s.memory_pools i).slot_size ∣
      ((allocate_new_block s i sys).state.memory_pools i).cur_slot ∧
    sys + 8 ≤ ((allocate_new_block s i sys).state.memory_pools i).cur_slot ∧
    (∀ m, (s.memory_pools i).slot_size ∣ m → sys + 8 ≤ m →
      ((allocate_new_block s i sys).state.memory_pools i).cur_slot ≤ m) := by
  rw [allocate_new_block_state s i hsys]
  simp only [State.setPool, State.store, Function.update_same, true_and, SIZEOF_SLOT_PTR]
  exact ⟨by simp [allocate_new_block, hsys], pad_pointer_dvd _ hss, Nat.le_add_right _ _,
    pad_pointer_least _ hss⟩

/-- Witness for C16: pool 1 (slot size 16) of the fresh registry, block at
4096. -/
theorem C16_growth_postcondition_witness :
    (allocate_new_block bootState 1 4096).val = 1 ∧
    (allocate_new_block bootState 1 4096).state.heap 4096 =
      (bootState.memory_pools 1).first_block ∧
    ((allocate_new_block bootState 1 4096).state.memory_pools 1).first_block = 4096 ∧
    (bootState.memory_pools 1).slot_size ∣
      ((allocate_new_block bootState 1 4096).state.memory_pools 1).cur_slot ∧
    4096 + 8 ≤ ((allocate_new_block bootState 1 4096).state.memory_pools 1).cur_slot ∧
    (∀ m, (bootState.memory_pools 1).slot_size ∣ m → 4096 + 8 ≤ m →
      ((allocate_new_block bootState 1 4096).state.memory_pools 1).cur_slot ≤ m) :=
  C16_growth_postcondition bootState 1 4096 (by decide) (by decide)

/-! ## Mutex calls -/

/-- Lock and unlock calls of `pool_alloc` on each of its paths: none on the
raw, not-found and free-list paths, one of each on the bump path and after a
successful growth, and one lock followed by two unlocks when the system
allocator fails. -/
theorem pool_alloc_mutex_paths (s : State) (size sys : Nat) :
    (size > MAX_SLOT_SIZE → ∀ j, (pool_alloc s size sys).events.count (Event.lock j) = 0 ∧
      (pool_alloc s size sys).events.count (Event.unlock j) = 0) ∧
    (get_memory_pool size = none → size ≤ MAX_SLOT_SIZE → (pool_alloc s size sys).events = []) ∧
    (∀ i, get_memory_pool size = some i →
      ((s.memory_pools i).free_list ≠ NULL → (pool_alloc s size sys).events = []) ∧
      ((s.memory_pools i).free_list = NULL →
        (s.memory_pools i).cur_slot < (s.memory_pools i).last_slot →
        (pool_alloc s size sys).events = [Event.lock i, Event.unlock i]) ∧
      ((s.memory_pools i).free_list = NULL →
        (s.memory_pools i).last_slot ≤ (s.memory_pools i).cur_slot → sys ≠ NULL →
        (pool_alloc s size sys).events =
          [Event.lock i, Event.malloc (s.memory_pools i).block_size sys, Event.unlock i]) ∧
      ((s.memory_pools i).free_list = NULL →
        (s.memory_pools i).last_slot ≤ (s.memory_pools i).cur_slot → sys = NULL →
        (pool_alloc s size sys).events =
          [Event.lock i, Event.malloc (s.memory_pools i).block_size NULL, Event.unlock i,
            Event.unlock i])) := by
  refine ⟨?_, ?_, ?_⟩
  · intro h j
    rw [pool_alloc_big s sys h]
    simp
  · intro hg hle
    simp [pool_alloc, Nat.not_lt.mpr hle, hg]
  · intro i hg
    refine ⟨?_, ?_, ?_, ?_⟩
    · intro hf
      rw [pool_alloc_pop s sys hg hf]
    · intro hf hc
      rw [pool_alloc_bump s sys hg hf hc]
      simp [take_cur_slot]
    · intro hf hc hsys
      rw [pool_alloc_grow s hg hf hc hsys]
      simp [take_cur_slot]
    · intro hf hc hsys
      subst hsys
      rw [pool_alloc_fail s hg hf hc]

/-- C20 (violated by the code): `pool_alloc(8)` on the freshly initialised
registry with a failing system allocator locks the mutex of pool 0 once and
unlocks it twice, once in `allocate_new_block` and once in `pool_alloc`. -/
theorem C20_double_unlock_on_oom :
    (pool_alloc bootState 8 NULL).val = NULL ∧
    (pool_alloc bootState 8 NULL).events =
      [Event.lock 0, Event.malloc 4096 NULL, Event.unlock 0, Event.unlock 0] ∧
    (pool_alloc bootState 8 NULL).events.count (Event.lock 0) = 1 ∧
    (pool_alloc bootState 8 NULL).events.count (Event.unlock 0) = 2 := by
  decide

/-! ## Growth and recycling -/

theorem ChainList_not_null {h : Nat → Nat} :
    ∀ (l : List Nat) (a : Nat), ChainList h a l → NULL ∉ l := by
  intro l
  induction l with
  | nil => intro a _ hm; simp at hm
  | cons x xs ih =>
    intro a hc hm
    obtain ⟨-, hx, hrest⟩ := hc
    rcases List.mem_cons.mp hm with e | e
    · exact hx e.symm
    · exact ih _ hrest e

theorem ChainList_heap_congr {h h' : Nat → Nat} :
    ∀ (l : List Nat) (a : Nat), ChainList h a l → (∀ x ∈ l, h' x = h x) → ChainList h' a l := by
  intro l
  induction l with
  | nil => intro a hc _; exact hc
  | cons x xs ih =>
    intro a hc he
    obtain ⟨rfl, hx, hrest⟩ := hc
    refine ⟨rfl, hx, ?_⟩
    rw [he a (List.mem_cons_self _ _)]
    exact ih _ hrest (fun y hy => he y (List.mem_cons_of_mem _ hy))

/-- Fields and heap words one `allocate_new_block` leaves alone. -/
theorem allocate_new_block_frame (s : State) (i sys : Nat) :
    ((allocate_new_block s i sys).state.memory_pools i).free_list =
      (s.memory_pools i).free_list ∧
    ((allocate_new_block s i sys).state.memory_pools i).slot_size =
      (s.memory_pools i).slot_size ∧
    ((allocate_new_block s i sys).state.memory_pools i).block_size =
      (s.memory_pools i).block_size ∧
    (∀ a, a ≠ sys ∨ sys = NULL → (allocate_new_block s i sys).state.heap a = s.heap a) := by
  by_cases hsys : sys = NULL
  · simp [allocate_new_block, hsys]
  · rw [allocate_new_block_state s i hsys]
    simp only [State.setPool, State.store, Function.update_same, true_and]
    intro a ha
    rcases ha with ha | ha
    · exact Function.update_noteq ha _ _
    · exact absurd ha hsys

theorem grow_many_frame (i : Nat) (fr : List Nat) :
    ∀ (syss : List Nat) (s : State), NULL ∉ fr → (∀ sys ∈ syss, sys ≠ NULL → sys ∉ fr) →
      ((grow_many s i syss).memory_pools i).free_list = (s.memory_pools i).free_list ∧
      ((grow_many s i syss).memory_pools i).slot_size = (s.memory_pools i).slot_size ∧
      ((grow_many s i syss).memory_pools i).block_size = (s.memory_pools i).block_size ∧
      (∀ a ∈ fr, (grow_many s i syss).heap a = s.heap a) := by
  intro syss
  induction syss with
  | nil => intro s _ _; exact ⟨rfl, rfl, rfl, fun _ _ => rfl⟩
  | cons sys rest ih =>
    intro s hnull hfresh
    obtain ⟨f1, f2, f3, f4⟩ := allocate_new_block_frame s i sys
    obtain ⟨g1, g2, g3, g4⟩ := ih (allocate_new_block s i sys).state hnull
      (fun x hx => hfresh x (List.mem_cons_of_mem _ hx))
    simp only [grow_many]
    refine ⟨g1.trans f1, g2.trans f2, g3.trans f3, ?_⟩
    intro a ha
    rw [g4 a ha]
    apply f4
    by_cases hsys : sys = NULL
    · exact Or.inr hsys
    · left
      intro e
      exact hfresh sys (List.mem_cons_self _ _) hsys (e ▸ ha)

/-- Allocations of class `i` pop the free list in order, without any call to
the system. -/
theorem run_drains_free_list {size i : Nat} (hg : get_memory_pool size = some i) (sys : Nat) :
    ∀ (fr : List Nat) (s : State), ChainList s.heap (s.memory_pools i).free_list fr →
      run s (List.replicate fr.length (Call.alloc size sys)) = fr.map (fun p => (p, [])) := by
  intro fr
  induction fr with
  | nil => intro s _; rfl
  | cons x xs ih =>
    intro s hc
    obtain ⟨hx, hne, hrest⟩ := hc
    have hf : (s.memory_pools i).free_list ≠ NULL := hx ▸ hne
    simp only [List.length_cons, List.replicate_succ, run, step, pool_alloc_pop s sys hg hf,
      List.map_cons, hx]
    rw [ih]
    simpa [State.setPool] using hrest

/-- C17: `allocate_new_block`, run any number of times on a pool with answers
that are null (failure) or blocks that are not free-list slots, leaves the
head and every link of the free list, `slot_size` and `block_size` unchanged;
the following `pool_alloc` calls of the class return the slots of the free
list one after the other without calling the system allocator.  In every world
reached by contract-obeying use a fresh block is not a free-list slot. -/
theorem C17_growth_keeps_free_list (s : State) (i : Nat) (fr syss : List Nat)
    (hfr : ChainList s.heap (s.memory_pools i).free_list fr)
    (hfresh : ∀ sys ∈ syss, sys ≠ NULL → sys ∉ fr) :
    ((grow_many s i syss).memory_pools i).free_list = (s.memory_pools i).free_list ∧
    ((grow_many s i syss).memory_pools i).slot_size = (s.memory_pools i).slot_size ∧
    ((grow_many s i syss).memory_pools i).block_size = (s.memory_pools i).block_size ∧
    (∀ a ∈ fr, (grow_many s i syss).heap a = s.heap a) ∧
    ChainList (grow_many s i syss).heap ((grow_many s i syss).memory_pools i).free_list fr ∧
    (∀ size sys, get_memory_pool size = some i →
      run (grow_many s i syss) (List.replicate fr.length (Call.alloc size sys)) =
        fr.map (fun p => (p, []))) ∧
    (∀ w, Reachable w → i < MEMORY_POOL_NUM → ∀ sys, FreshRegion w.regions sys BLOCK_SIZE →
      ∃ fr', ChainList w.state.heap (w.state.memory_pools i).free_list fr' ∧ sys ∉ fr') := by
  obtain ⟨g1, g2, g3, g4⟩ := grow_many_frame i fr syss s (ChainList_not_null fr _ hfr) hfresh
  have hch : ChainList (grow_many s i syss).heap
      ((grow_many s i syss).memory_pools i).free_list fr := by
    rw [g1]
    exact ChainList_heap_congr fr _ hfr g4
  refine ⟨g1, g2, g3, g4, hch, ?_, ?_⟩
  · intro size sys hg
    exact run_drains_free_list hg sys fr _ hch
  · intro w hr hi sys hf
    obtain ⟨owned, frees, hI⟩ := hr.inv
    exact ⟨frees i, (hI.pools i hi).free_chain, (hI.fresh_sep hf i hi).2⟩

/-- Witness for C17: pool 0 with the free list `4104 -> 4112`, grown with
blocks at 8192 and 12288 and one failed attempt in between. -/
theorem C17_growth_keeps_free_list_witness :
    run (grow_many abaWorld.state 0 [8192, 0, 12288])
        (List.replicate [4104, 4112].length (Call.alloc 8 0)) =
      [4104, 4112].map (fun p => (p, [])) :=
  (C17_growth_keeps_free_list abaWorld.state 0 [4104, 4112] [8192, 0, 12288]
    ⟨by decide, by decide, by decide, by decide,
      (by decide : abaWorld.state.heap 4112 = NULL)⟩
    (by decide)).2.2.2.2.2.1 8 0 (by decide)

/-! ## Block capacity -/

/-- Bump allocations out of the current block: as long as the cursor stays
below the limit, each call returns the cursor, advances it by the slot size
and makes no call to the system allocator. -/
theorem run_bump {size i : Nat} (hg : get_memory_pool size = some i) (ss L : Nat) :
    ∀ (syss : List Nat) (t : State) (c : Nat),
      (t.memory_pools i).free_list = NULL → (t.memory_pools i).cur_slot = c →
      (t.memory_pools i).slot_size = ss → (t.memory_pools i).last_slot = L →
      (∀ k, k < syss.length → c + k * ss < L) →
      run t (syss.map (Call.alloc size)) =
        (List.range syss.length).map
          (fun k => (c + k * ss, [Event.lock i, Event.unlock i])) ∧
      (runState t (syss.map (Call.alloc size))).memory_pools i =
        { t.memory_pools i with cur_slot := c + syss.length * ss } := by
  intro syss
  induction syss with
  | nil =>
    intro t c _ hc _ _ _
    refine ⟨rfl, ?_⟩
    simp [runState, ← hc]
  | cons x rest ih =>
    intro t c hf hc hss hL hlt
    have h0 : (t.memory_pools i).cur_slot < (t.memory_pools i).last_slot := by
      have := hlt 0 (by simp)
      rw [hc, hL]
      simpa using this
    have hstep := pool_alloc_bump t x hg hf h0
    obtain ⟨ih1, ih2⟩ := ih (take_cur_slot t i [Event.lock i]).state (c + ss)
      (by simpa [take_cur_slot, State.setPool] using hf)
      (by simp [take_cur_slot, State.setPool, hc, hss])
      (by simpa [take_cur_slot, State.setPool] using hss)
      (by simpa [take_cur_slot, State.setPool] using hL)
      (by
        intro k hk
        have := hlt (k + 1) (by simpa using hk)
        rw [Nat.add_mul, Nat.one_mul] at this
        omega)
    constructor
    · simp only [List.map_cons, run, step, hstep, List.length_cons, List.range_succ_eq_map,
        List.map_map]
      rw [ih1]
      refine congrArg₂ List.cons ?_ ?_
      · simp [take_cur_slot, hc]
      · apply List.map_congr_left
        intro k _
        simp only [Function.comp, Nat.succ_eq_add_one, Nat.add_mul, Nat.one_mul]
        refine congrArg₂ Prod.mk ?_ rfl
        omega
    · simp only [List.map_cons, runState, step, hstep, List.length_cons]
      rw [ih2]
      simp only [take_cur_slot, State.setPool, Function.update_same, Nat.add_mul, Nat.one_mul]
      congr 1
      omega

/-- `pool_alloc` calls the system allocator on the pool path only when the
free list is empty and the cursor has reached the limit. -/
theorem pool_alloc_malloc_only_when_exhausted (s : State) (size sys n r : Nat)
    (hs : size ≤ MAX_SLOT_SIZE) (hm : Event.malloc n r ∈ (pool_alloc s size sys).events) :
    ∃ i, get_memory_pool size = some i ∧ (s.memory_pools i).free_list = NULL ∧
      (s.memory_pools i).last_slot ≤ (s.memory_pools i).cur_slot ∧
      n = (s.memory_pools i).block_size ∧ r = sys := by
  obtain ⟨-, h2, h3⟩ := pool_alloc_mutex_paths s size sys
  cases hg : get_memory_pool size with
  | none =>
    rw [h2 hg hs] at hm
    simp at hm
  | some i =>
    obtain ⟨p1, p2, p3, p4⟩ := h3 i hg
    refine ⟨i, rfl, ?_⟩
    by_cases hf : (s.memory_pools i).free_list = NULL
    · by_cases hc : (s.memory_pools i).last_slot ≤ (s.memory_pools i).cur_slot
      · by_cases hsys : sys = NULL
        · rw [p4 hf hc hsys] at hm
          simp at hm
          exact ⟨hf, hc, hm.1, hm.2.trans hsys.symm⟩
        · rw [p3 hf hc hsys] at hm
          simp at hm
          exact ⟨hf, hc, hm.1, hm.2⟩
      · rw [p2 hf (by omega)] at hm
        simp at hm
    · rw [p1 hf] at hm
      simp at hm

/-- C18: an initialised pool with an empty free list and an exhausted (or no)
block, grown with a block at `b`, hands out exactly
`(4096 - 8 - pad) / slot_size` slots from that block, where
`pad = pad_pointer(b + 8, slot_size)`: the first on the call that grows the
pool, the others on the following calls, at the consecutive addresses
`b + 8 + pad + k * slot_size`, all inside the block, with a single call to the
system allocator; one more slot would not fit, and the next `pool_alloc` asks
the system allocator for a block.  On the pool path the system allocator is
called only when the free list is empty and `cur_slot >= last_slot`. -/
theorem C18_block_capacity (s : State) (size i b : Nat) (syss : List Nat)
    (hg : get_memory_pool size = some i) (hinit : Initialised s i)
    (hf : (s.memory_pools i).free_list = NULL)
    (hc : (s.memory_pools i).last_slot ≤ (s.memory_pools i).cur_slot) (hb : b ≠ NULL)
    (hlen : syss.length + 1 =
      (BLOCK_SIZE - SIZEOF_SLOT_PTR -
        pad_pointer (b + SIZEOF_SLOT_PTR) (s.memory_pools i).slot_size) /
          (s.memory_pools i).slot_size) :
    run s (Call.alloc size b :: syss.map (Call.alloc size)) =
      (b + SIZEOF_SLOT_PTR + pad_pointer (b + SIZEOF_SLOT_PTR) (s.memory_pools i).slot_size,
        [Event.lock i, Event.malloc BLOCK_SIZE b, Event.unlock i]) ::
      (List.range syss.length).map (fun k =>
        (b + SIZEOF_SLOT_PTR + pad_pointer (b + SIZEOF_SLOT_PTR) (s.memory_pools i).slot_size +
          (k + 1) * (s.memory_pools i).slot_size, [Event.lock i, Event.unlock i])) ∧
    (∀ k, k < syss.length + 1 →
      b + SIZEOF_SLOT_PTR + pad_pointer (b + SIZEOF_SLOT_PTR) (s.memory_pools i).slot_size +
        k * (s.memory_pools i).slot_size + (s.memory_pools i).slot_size ≤ b + BLOCK_SIZE) ∧
    b + BLOCK_SIZE <
      b + SIZEOF_SLOT_PTR + pad_pointer (b + SIZEOF_SLOT_PTR) (s.memory_pools i).slot_size +
        (syss.length + 1) * (s.memory_pools i).slot_size + (s.memory_pools i).slot_size ∧
    (∀ sys, Event.malloc BLOCK_SIZE sys ∈
      (pool_alloc (runState s (Call.alloc size b :: syss.map (Call.alloc size))) size sys).events) ∧
    (∀ (t : State) (sz sys n r : Nat), sz ≤ MAX_SLOT_SIZE →
      Event.malloc n r ∈ (pool_alloc t sz sys).events →
      ∃ j, get_memory_pool sz = some j ∧ (t.memory_pools j).free_list = NULL ∧
        (t.memory_pools j).last_slot ≤ (t.memory_pools j).cur_slot) := by
  obtain ⟨hss, hbs⟩ := hinit
  have hi := (get_memory_pool_lt hg).1
  have hpos : 0 < (s.memory_pools i).slot_size := by
    rw [hss]; simp [SLOT_BASE_SIZE]
  have h512 : (s.memory_pools i).slot_size ≤ MAX_SLOT_SIZE := by
    rw [hss]; simp only [SLOT_BASE_SIZE, MAX_SLOT_SIZE, MEMORY_POOL_NUM] at *; omega
  have hpad := pad_pointer_lt (b + SIZEOF_SLOT_PTR) hpos
  generalize hssd : (s.memory_pools i).slot_size = ss at *
  generalize hpd : pad_pointer (b + SIZEOF_SLOT_PTR) ss = pad at *
  -- arithmetic of the capacity
  have hN : (syss.length + 1) * ss ≤ BLOCK_SIZE - SIZEOF_SLOT_PTR - pad := by
    rw [hlen]; exact Nat.div_mul_le_self _ _
  have hN' : BLOCK_SIZE - SIZEOF_SLOT_PTR - pad < (syss.length + 1) * ss + ss := by
    have h1 := Nat.div_add_mod (BLOCK_SIZE - SIZEOF_SLOT_PTR - pad) ss
    have h2 := Nat.mod_lt (BLOCK_SIZE - SIZEOF_SLOT_PTR - pad) hpos
    rw [← hlen, Nat.mul_comm] at h1
    omega
  have hfit : ∀ k, k < syss.length + 1 →
      b + SIZEOF_SLOT_PTR + pad + k * ss + ss ≤ b + BLOCK_SIZE := by
    intro k hk
    have := Nat.mul_le_mul_right ss (show k + 1 ≤ syss.length + 1 by omega)
    rw [Nat.add_mul, Nat.one_mul] at this
    simp only [SIZEOF_SLOT_PTR, BLOCK_SIZE, MAX_SLOT_SIZE] at *
    omega
  -- the growing call
  have hstep := pool_alloc_grow s hg hf hc hb
  rw [allocate_new_block_state s i hb, hssd, hpd, hbs] at hstep
  have hb1 := run_bump hg ss (b + BLOCK_SIZE - ss + 1) syss
    (take_cur_slot
      ((s.store b (s.memory_pools i).first_block).setPool i
        { s.memory_pools i with
          first_block := b
          cur_slot := b + SIZEOF_SLOT_PTR + pad
          last_slot := b + BLOCK_SIZE - ss + 1 }) i
      [Event.lock i, Event.malloc BLOCK_SIZE b]).state
    (b + SIZEOF_SLOT_PTR + pad + ss)
    (by simpa [take_cur_slot, State.setPool, State.store] using hf)
    (by simp [take_cur_slot, State.setPool, State.store, hssd])
    (by simp [take_cur_slot, State.setPool, State.store, hssd])
    (by simp [take_cur_slot, State.setPool, State.store])
    (by
      intro k hk
      have := hfit (k + 1) (by omega)
      rw [Nat.add_mul, Nat.one_mul] at this
      simp only [SIZEOF_SLOT_PTR, BLOCK_SIZE, MAX_SLOT_SIZE] at *
      omega)
  obtain ⟨hrun, hfin⟩ := hb1
  refine ⟨?_, hfit, ?_, ?_, ?_⟩
  · simp only [run, step, hstep]
    rw [hrun]
    refine congrArg₂ List.cons ?_ ?_
    · simp [take_cur_slot, State.setPool, State.store]
    · apply List.map_congr_left
      intro k _
      refine congrArg₂ Prod.mk ?_ rfl
      rw [Nat.add_mul, Nat.one_mul]
      omega
  · simp only [SIZEOF_SLOT_PTR, BLOCK_SIZE, MAX_SLOT_SIZE] at *
    omega
  · intro sys
    have hfl : ((runState s (Call.alloc size b :: syss.map (Call.alloc size))).memory_pools
        i).free_list = NULL := by
      simp only [runState, step, hstep, hfin]
      simpa [take_cur_slot, State.setPool, State.store] using hf
    have hex : ((runState s (Call.alloc size b :: syss.map (Call.alloc size))).memory_pools
          i).last_slot ≤
        ((runState s (Call.alloc size b :: syss.map (Call.alloc size))).memory_pools
          i).cur_slot := by
      simp only [runState, step, hstep, hfin]
      simp only [take_cur_slot, State.setPool, State.store, Function.update_same]
      rw [Nat.add_mul, Nat.one_mul] at hN'
      simp only [SIZEOF_SLOT_PTR, BLOCK_SIZE, MAX_SLOT_SIZE] at *
      omega
    have hbs' : ((runState s (Call.alloc size b :: syss.map (Call.alloc size))).memory_pools
        i).block_size = BLOCK_SIZE := by
      simp only [runState, step, hstep, hfin]
      simpa [take_cur_slot, State.setPool, State.store] using hbs
    by_cases hsys : sys = NULL
    · subst hsys
      rw [pool_alloc_fail _ hg hfl hex, hbs']
      simp
    · rw [pool_alloc_grow _ hg hfl hex hsys, hbs']
      simp [take_cur_slot]
  · intro t sz sys n r hsz hm
    obtain ⟨j, h1, h2, h3, -, -⟩ := pool_alloc_malloc_only_when_exhausted t sz sys n r hsz hm
    exact ⟨j, h1, h2, h3⟩

/-- Witness for C18: size 512 on the fresh registry with a block at 4096; the
padding is 504 and the block holds `(4096 - 8 - 504) / 512 = 7` slots. -/
theorem C18_block_capacity_witness :
    run bootState (Call.alloc 512 4096 :: [0, 0, 0, 0, 0, 0].map (Call.alloc 512)) =
      (4096 + SIZEOF_SLOT_PTR +
          pad_pointer (4096 + SIZEOF_SLOT_PTR) (bootState.memory_pools 63).slot_size,
        [Event.lock 63, Event.malloc BLOCK_SIZE 4096, Event.unlock 63]) ::
      (List.range [0, 0, 0, 0, 0, 0].length).map (fun k =>
        (4096 + SIZEOF_SLOT_PTR +
            pad_pointer (4096 + SIZEOF_SLOT_PTR) (bootState.memory_pools 63).slot_size +
          (k + 1) * (bootState.memory_pools 63).slot_size,
          [Event.lock 63, Event.unlock 63])) :=
  (C18_block_capacity bootState 512 63 4096 [0, 0, 0, 0, 0, 0] (by decide)
    ⟨by decide, by decide⟩ (by decide) (by decide) (by decide) (by decide)).1

/-! ## Reachable worlds with their acquisitions -/

theorem ReachableWith.reachable {w : World} {acq : List (Nat × Nat)}
    (hr : ReachableWith w acq) : Reachable w := by
  induction hr with
  | init s0 => exact Reachable.init s0
  | alloc w acq size sys _ hf ih => exact Reachable.alloc w size sys ih hf
  | free w acq p size _ hl ih => exact Reachable.free w p size ih hl
  | store w acq a v _ hw ih => exact Reachable.store w a v ih hw

theorem Reachable.with_acquired {w : World} (hr : Reachable w) :
    ∃ acq, ReachableWith w acq := by
  induction hr with
  | init s0 => exact ⟨[], ReachableWith.init s0⟩
  | alloc w size sys _ hf ih =>
    obtain ⟨acq, h⟩ := ih
    exact ⟨_, ReachableWith.alloc w acq size sys h hf⟩
  | free w p size _ hl ih =>
    obtain ⟨acq, h⟩ := ih
    exact ⟨_, ReachableWith.free w acq p size h hl⟩
  | store w a v _ hw ih =>
    obtain ⟨acq, h⟩ := ih
    exact ⟨_, ReachableWith.store w acq a v h hw⟩

/-- The invariant holds with the acquisitions recorded along the way. -/
theorem ReachableWith.inv_acquired {w : World} {acq : List (Nat × Nat)} (hr : ReachableWith w acq) :
    ∃ frees, Inv w acq frees := by
  induction hr with
  | init s0 => exact ⟨fun _ => [], Inv_init s0⟩
  | alloc w acq size sys _ hfresh ih =>
    obtain ⟨frees, hI⟩ := ih
    exact Inv_alloc_acquired hI size sys hfresh
  | free w acq p size _ hl ih =>
    obtain ⟨frees, hI⟩ := ih
    obtain ⟨st, live, regions⟩ := w
    simp only at hl
    obtain ⟨l1, l2, -, hsplit, herase⟩ := List.exists_erase_eq hl
    subst hsplit
    simp only [World.free, herase]
    exact Inv_free_owned hI
  | store w acq a v _ hw ih =>
    obtain ⟨frees, hI⟩ := ih
    exact ⟨frees, Inv_store hI a v hw⟩

theorem blocksOf_nodup {owned : List (Nat × Nat)}
    (hd : owned.Pairwise (fun e e' => e.2 + BLOCK_SIZE ≤ e'.2 ∨ e'.2 + BLOCK_SIZE ≤ e.2))
    (i : Nat) : (blocksOf owned i).Nodup := by
  unfold blocksOf List.Nodup
  rw [List.pairwise_map]
  refine (hd.filter _).imp ?_
  intro e e' h
  simp only [BLOCK_SIZE] at h
  omega

theorem ChainList_unique {h : Nat → Nat} :
    ∀ (l1 l2 : List Nat) (a : Nat), ChainList h a l1 → ChainList h a l2 → l1 = l2 := by
  intro l1
  induction l1 with
  | nil =>
    intro l2 a h1 h2
    exact (ChainList_null h2 h1).symm
  | cons x xs ih =>
    intro l2 a h1 h2
    obtain ⟨rfl, hx, hrest⟩ := h1
    obtain ⟨rest, rfl, hrest2⟩ := ChainList_head h2 hx
    rw [ih rest _ hrest hrest2]

/-- A slot on a free list is not the base of a block. -/
theorem Inv.free_slot_not_block {w : World} {owned : List (Nat × Nat)}
    {frees : Nat → List Nat} (hI : Inv w owned frees) {j q : Nat} (hj : j < MEMORY_POOL_NUM)
    (hq : q ∈ frees j) : ∀ k, q ∉ blocksOf owned k := by
  intro k hm
  have hPj := hI.pools j hj
  obtain ⟨-, b, hb, hb1, hb2, -⟩ := hPj.slots q (List.mem_append_right _ hq)
  have hpos := (hPj.slot_pos hj).1
  rcases hI.block_sep hb hm with ⟨-, e⟩ | e | e <;>
    simp only [SIZEOF_SLOT_PTR, BLOCK_SIZE] at * <;> omega

/-- The reachable world used in the examples: one slot of size 8 held by the
caller, out of a block at 4096 obtained by pool 0. -/
theorem reachableWith_one_alloc :
    ReachableWith ((World.init zeroState).alloc 8 4096)
      ((World.init zeroState).acquired 8 4096 ++ []) :=
  ReachableWith.alloc _ [] 8 4096 (ReachableWith.init zeroState)
    (fun _ _ _ r hr => absurd hr (List.not_mem_nil r))

/-! ## Teardown frees the chain -/

/-- C19: in every world reached by contract-obeying use, with `acq` the blocks
the pools obtained from the system allocator (newest first),
`memory_pool_destroy` of pool `i` returns (for any fuel of at least the number
of its blocks) and its calls are: lock, `free` of each block of the pool
once, newest first, unlock.  The blocks of a pool are pairwise different; no
slot held by the caller or on a free list is a block, so no slot is passed to
`free`; and `pool_free` of a pooled size makes no call to `free`. -/
theorem C19_teardown_frees_chain (w : World) (acq : List (Nat × Nat))
    (hr : ReachableWith w acq) (i : Nat) (hi : i < MEMORY_POOL_NUM) :
    (blocksOf acq i).Nodup ∧
    (∀ fuel, (blocksOf acq i).length ≤ fuel →
      ∃ s', memory_pool_destroy fuel w.state i =
        some (s', Event.lock i :: (blocksOf acq i).map Event.free ++ [Event.unlock i])) ∧
    (∀ e ∈ w.live, e.2 ≤ MAX_SLOT_SIZE → ∀ k, k < MEMORY_POOL_NUM → e.1 ∉ blocksOf acq k) ∧
    (∀ j fr, j < MEMORY_POOL_NUM →
      ChainList w.state.heap (w.state.memory_pools j).free_list fr →
      ∀ q ∈ fr, ∀ k, q ∉ blocksOf acq k) ∧
    (∀ (s : State) (p size : Nat), size ≤ MAX_SLOT_SIZE → (pool_free s p size).2 = []) := by
  obtain ⟨frees, hI⟩ := hr.inv_acquired
  have hP := hI.pools i hi
  refine ⟨blocksOf_nodup hI.globals.owned_disj i, ?_, ?_, ?_, ?_⟩
  · intro fuel hfuel
    have := free_block_chain_of_chain _ _ fuel hP.chain hfuel
    simp [memory_pool_destroy, this]
  · intro e he hs k hk
    obtain ⟨-, h0⟩ := hI.globals.live_ok e he
    have hg := get_memory_pool_some h0 hs
    generalize (e.2 + SLOT_BASE_SIZE - 1) / SLOT_BASE_SIZE - 1 = j at hg
    have hj := (get_memory_pool_lt hg).1
    exact (hI.live_sep hj (mem_liveOf.mpr ⟨e.2, he, hg⟩) (Nat.le_refl _)
      (Nat.lt_add_of_pos_right ((hI.pools j hj).slot_pos hj).1) k hk).1
  · intro j fr hj hfr q hq k
    have := ChainList_unique _ _ _ hfr (hI.pools j hj).free_chain
    subst this
    exact hI.free_slot_not_block hj hq k
  · intro s p size hs
    unfold pool_free
    split_ifs with h1 h2
    · rfl
    · exact absurd h2 (Nat.not_lt.mpr hs)
    · split <;> rfl

/-- Witness for C19: pool 0 after one allocation served from a block at
4096. -/
theorem C19_teardown_frees_chain_witness :
    blocksOf ((World.init zeroState).acquired 8 4096 ++ []) 0 = [4096] ∧
    ∃ s', memory_pool_destroy 1 ((World.init zeroState).alloc 8 4096).state 0 =
      some (s', Event.lock 0 ::
        (blocksOf ((World.init zeroState).acquired 8 4096 ++ []) 0).map Event.free ++
          [Event.unlock 0]) :=
  ⟨by decide,
    (C19_teardown_frees_chain _ _ reachableWith_one_alloc 0 (by decide)).2.1 1 (by decide)⟩

/-! ## Slot exclusivity -/

/-- C15: in every world reached by contract-obeying use, for every pool, with
`bl` its block chain and `fr` its free list: the slots held by the caller and
the slots on the free list are pairwise different (none is both held and
free, none is on the free list twice), each is an aligned slot inside one of
the blocks of the pool, and each lies outside the unexplored region
`[cur_slot, first_block + 4096)` of the current block. -/
theorem C15_slot_exclusivity (w : World) (hr : Reachable w) (i : Nat)
    (hi : i < MEMORY_POOL_NUM) :
    ∃ bl fr,
      ChainList w.state.heap (w.state.memory_pools i).first_block bl ∧
      ChainList w.state.heap (w.state.memory_pools i).free_list fr ∧
      (liveOf w.live i ++ fr).Nodup ∧
      (∀ q ∈ liveOf w.live i ++ fr,
        (w.state.memory_pools i).slot_size ∣ q ∧
        (∃ b ∈ bl, b + SIZEOF_SLOT_PTR ≤ q ∧
          q + (w.state.memory_pools i).slot_size ≤ b + BLOCK_SIZE) ∧
        (q + (w.state.memory_pools i).slot_size ≤ (w.state.memory_pools i).cur_slot ∨
          (w.state.memory_pools i).first_block + BLOCK_SIZE ≤ q)) := by
  obtain ⟨owned, frees, hI⟩ := hr.inv
  have hP := hI.pools i hi
  refine ⟨blocksOf owned i, frees i, hP.chain, hP.free_chain, hP.nodup, ?_⟩
  intro q hq
  obtain ⟨hdv, b, hb, hb1, hb2, hb3⟩ := hP.slots q hq
  refine ⟨hdv, ⟨b, hb, hb1, hb2⟩, ?_⟩
  have hbn : b ≠ NULL := fun e => ChainList_not_null _ _ hP.chain (e ▸ hb)
  rcases hP.cursor with ⟨c1, -, -⟩ | ⟨c1, c2, c3, -⟩
  · rw [ChainList_null hP.chain c1] at hb
    simp at hb
  · by_cases hbf : b = (w.state.memory_pools i).first_block
    · left
      have hlt := hb3 hbf
      by_contra hcon
      have := slot_eq_of_within hdv c3 (Nat.le_of_lt hlt) (Nat.not_le.mp hcon)
      omega
    · obtain ⟨rest, hbl, -⟩ := ChainList_head hP.chain c1
      have hm : (w.state.memory_pools i).first_block ∈ blocksOf owned i := by
        rw [hbl]; exact List.mem_cons_self _ _
      rcases hI.block_sep hb hm with ⟨-, e⟩ | e | e
      · exact absurd e hbf
      · left
        simp only [SIZEOF_SLOT_PTR, BLOCK_SIZE] at *
        omega
      · right
        simp only [SIZEOF_SLOT_PTR, BLOCK_SIZE] at *
        omega

/-- Witness for C15: pool 0 of the world with the free list
`4104 -> 4112`. -/
theorem C15_slot_exclusivity_witness :
    ∃ bl fr,
      ChainList abaWorld.state.heap (abaWorld.state.memory_pools 0).first_block bl ∧
      ChainList abaWorld.state.heap (abaWorld.state.memory_pools 0).free_list fr ∧
      (liveOf abaWorld.live 0 ++ fr).Nodup ∧
      (∀ q ∈ liveOf abaWorld.live 0 ++ fr,
        (abaWorld.state.memory_pools 0).slot_size ∣ q ∧
        (∃ b ∈ bl, b + SIZEOF_SLOT_PTR ≤ q ∧
          q + (abaWorld.state.memory_pools 0).slot_size ≤ b + BLOCK_SIZE) ∧
        (q + (abaWorld.state.memory_pools 0).slot_size ≤
            (abaWorld.state.memory_pools 0).cur_slot ∨
          (abaWorld.state.memory_pools 0).first_block + BLOCK_SIZE ≤ q)) :=
  C15_slot_exclusivity abaWorld
    (Reachable.free _ 4104 8
      (Reachable.free _ 4112 8
        (Reachable.alloc _ 8 0
          (Reachable.alloc _ 8 4096 (Reachable.init zeroState)
            (fun _ _ _ r hr => absurd hr (List.not_mem_nil r)))
          (fun h => absurd rfl h))
        (by decide))
      (by decide))
    0 (by decide)

/-! ## Interleaved pops -/

/-- The three atomic accesses of `remove_from_free_list`, run without
interruption on a non-empty free list, are the sequential
`remove_from_free_list`. -/
theorem pop_steps_sequential (s : State) (i : Nat) (h : pop_load s i ≠ NULL) :
    pop_cas s i (pop_load s i) (pop_next s (pop_load s i)) =
      (true, (remove_from_free_list s i).1, (remove_from_free_list s i).2) := by
  unfold pop_load at h
  simp [pop_cas, pop_load, pop_next, remove_from_free_list, h]

/-- C14 (violated by the code): a schedule of two threads on pool 0, each
obeying the release contract, after which a slot is handed out a second time
while its first holder still has it.  Start: free list `4104 -> 4112`, nothing
held.  Thread A, inside `remove_from_free_list`, reads the head 4104 and its
successor 4112.  Thread B then allocates 4104, allocates 4112 and releases
4104, so that the head is 4104 again.  The compare and swap of thread A
succeeds and installs the stale successor 4112 as head although thread B holds
4112; the next `pool_alloc` returns 4112. -/
theorem C14_aba_double_handout :
    abaWorld.live = [] ∧
    pop_load abaWorld.state 0 = 4104 ∧
    pop_next abaWorld.state (pop_load abaWorld.state 0) = 4112 ∧
    (pool_alloc abaWorld.state 8 0).val = 4104 ∧
    (pool_alloc (pool_alloc abaWorld.state 8 0).state 8 0).val = 4112 ∧
    (abaAfterB.memory_pools 0).free_list = 4104 ∧
    abaAfterA.1 = true ∧
    abaAfterA.2.1 = 4104 ∧
    (abaAfterA.2.2.memory_pools 0).free_list = 4112 ∧
    (pool_alloc abaAfterA.2.2 8 0).val = 4112 := by
  decide

end MemPool
